import Mathlib

/-!
# Verification of the Telegram API gateway (`src/main.py`)

A shallow embedding of the gateway's core: the `Cryptography` token codec
(Fernet encryption with stripped base64 padding and a 3600-second ttl), the
`PyrogramResponse` tree normalizer (`process_file_ids`, enum replacement),
and the HTTP endpoint handlers (`get_chat`, `get_messages`), together with
theorems settling the specification's claims about them.

Conventions of the embedding:
* JSON trees are `Json`; objects are insertion-ordered association lists,
  exactly as Python dicts are.
* Machine time is a `Nat` (`int(time())`); the process-wide Fernet key is a
  `Nat` parameter threaded through the codec.
* The external Fernet library is modelled executably: a token is the
  base64url encoding of `version byte ∥ 8-byte big-endian timestamp ∥
  8-byte authentication tag ∥ message bytes`, and decryption re-checks the
  tag and enforces `timestamp + ttl < now ⇒ reject`, exactly the ttl rule
  the gateway relies on.  (The library's 60-second future-clock-skew
  rejection is elided: the gateway only ever mints past-dated tokens.)
* Python `str` values are Lean `String`s; the plaintext-to-bytes boundary
  encodes each character as three big-endian bytes of its code point.
-/

set_option maxRecDepth 20000

/-- JSON trees, the object graphs the normalizer rewrites.  Objects are
insertion-ordered association lists, as Python dicts are. -/
inductive Json where
  | null : Json
  | bool : Bool → Json
  | num : Int → Json
  | str : String → Json
  | arr : List Json → Json
  | obj : List (String × Json) → Json

mutual

/-- Boolean equality of JSON trees (deriving is unavailable for the nested
inductive, so it is spelled out). -/
def jsonBeq : Json → Json → Bool
  | .null, .null => true
  | .bool a, .bool b => a == b
  | .num a, .num b => a == b
  | .str a, .str b => a == b
  | .arr a, .arr b => jsonListBeq a b
  | .obj a, .obj b => jsonEntriesBeq a b
  | _, _ => false

/-- Boolean equality of JSON sequences. -/
def jsonListBeq : List Json → List Json → Bool
  | [], [] => true
  | a :: as, b :: bs => jsonBeq a b && jsonListBeq as bs
  | _, _ => false

/-- Boolean equality of JSON object entry lists. -/
def jsonEntriesBeq : List (String × Json) → List (String × Json) → Bool
  | [], [] => true
  | (k, v) :: as, (k', v') :: bs => k == k' && jsonBeq v v' && jsonEntriesBeq as bs
  | _, _ => false

end

mutual

theorem jsonBeq_iff : (a b : Json) → (jsonBeq a b = true ↔ a = b)
  | .null, b => by cases b <;> simp [jsonBeq]
  | .bool x, b => by cases b <;> simp [jsonBeq]
  | .num x, b => by cases b <;> simp [jsonBeq]
  | .str x, b => by cases b <;> simp [jsonBeq]
  | .arr l, b => by
    cases b <;> simp [jsonBeq]
    case arr l' => exact jsonListBeq_iff l l'
  | .obj es, b => by
    cases b <;> simp [jsonBeq]
    case obj es' => exact jsonEntriesBeq_iff es es'

theorem jsonListBeq_iff : (a b : List Json) → (jsonListBeq a b = true ↔ a = b)
  | [], b => by cases b <;> simp [jsonListBeq]
  | x :: xs, b => by
    cases b <;> simp [jsonListBeq]
    case cons y ys =>
      rw [jsonBeq_iff x y, jsonListBeq_iff xs ys]

theorem jsonEntriesBeq_iff : (a b : List (String × Json)) → (jsonEntriesBeq a b = true ↔ a = b)
  | [], b => by cases b <;> simp [jsonEntriesBeq]
  | (k, v) :: xs, b => by
    cases b <;> simp [jsonEntriesBeq]
    case cons y ys =>
      obtain ⟨k', v'⟩ := y
      rw [jsonBeq_iff v v', jsonEntriesBeq_iff xs ys]
      simp [Prod.ext_iff, and_assoc]

end

instance : DecidableEq Json := fun a b =>
  decidable_of_iff (jsonBeq a b = true) (jsonBeq_iff a b)

instance : BEq Json := ⟨jsonBeq⟩

instance : LawfulBEq Json where
  eq_of_beq h := (jsonBeq_iff _ _).1 h
  rfl := (jsonBeq_iff _ _).2 rfl

/-- The characters of the media-field marker `"_file_id"`. -/
def fileIdPat : List Char := ['_', 'f', 'i', 'l', 'e', '_', 'i', 'd']

/-- The characters of the generated-URL suffix `"_file_url"`. -/
def fileUrlPat : List Char := ['_', 'f', 'i', 'l', 'e', '_', 'u', 'r', 'l']

/-- The characters of the mime-sibling suffix `"_mime_type"`. -/
def mimeTypePat : List Char := ['_', 'm', 'i', 'm', 'e', '_', 't', 'y', 'p', 'e']

/-- Python `key.replace("_file_id", rep)`: scan left to right, replacing every
non-overlapping occurrence of `"_file_id"` by `rep`. -/
def replaceFid (rep : List Char) : List Char → List Char
  | '_' :: 'f' :: 'i' :: 'l' :: 'e' :: '_' :: 'i' :: 'd' :: rest => rep ++ replaceFid rep rest
  | c :: rest => c :: replaceFid rep rest
  | [] => []

/-- Python `key == "file_id" or key.endswith("_file_id")`. -/
def isFileIdKeyB (k : String) : Bool := k == "file_id" || fileIdPat.isSuffixOf k.data

/-- The generated URL key: `key.replace("_file_id", "_file_url") if
key.endswith("_file_id") else "file_url"`. -/
def urlKeyOf (k : String) : String :=
  if fileIdPat.isSuffixOf k.data then ⟨replaceFid fileUrlPat k.data⟩ else "file_url"

/-- The mime sibling key: `key.replace("_file_id", "_mime_type") if
key.endswith("_file_id") else "mime_type"`. -/
def mimeKeyOf (k : String) : String :=
  if fileIdPat.isSuffixOf k.data then ⟨replaceFid mimeTypePat k.data⟩ else "mime_type"

/-- A key the normalizer's output treats as a generated media-URL field:
exactly `"file_url"` or ending in `"_file_url"`. -/
def isUrlKeyB (k : String) : Bool := k == "file_url" || fileUrlPat.isSuffixOf k.data

/-- Python truthiness of a JSON value (the `if mime:` test). -/
def Json.truthy : Json → Bool
  | .null => false
  | .bool b => b
  | .num n => n != 0
  | .str s => s != ""
  | .arr l => !l.isEmpty
  | .obj l => !l.isEmpty

/-- Python `_dict.get(key, "")` over an insertion-ordered dict. -/
def getDefault (es : List (String × Json)) (k : String) : Json :=
  match es.find? (fun p => p.1 == k) with
  | some p => p.2
  | none => .str ""

/-- Python dict assignment `d[k] = v`: overwrite the value of an existing
entry in place, or append a fresh entry at the end. -/
def setKey : List (String × Json) → String → Json → List (String × Json)
  | [], k, v => [(k, v)]
  | (k', v') :: rest, k, v =>
    if k' = k then (k, v) :: rest else (k', v') :: setKey rest k v

/-- Code-point comparison of strings, as Python `<` on `str`. -/
def strLtB : List Char → List Char → Bool
  | [], [] => false
  | [], _ :: _ => true
  | _ :: _, [] => false
  | a :: as, b :: bs =>
    if a.toNat < b.toNat then true
    else if b.toNat < a.toNat then false
    else strLtB as bs

/-- Item order used by `sorted(new_dict.items())`: keys are unique in a dict,
so tuple comparison is comparison of the keys. -/
def entryLe (a b : String × Json) : Bool := !(strLtB b.1.data a.1.data)

/-- Insert an entry in front of the first entry it is `entryLe`-below. -/
def insertEntry (x : String × Json) : List (String × Json) → List (String × Json)
  | [] => [x]
  | y :: rest => if entryLe x y then x :: y :: rest else y :: insertEntry x rest

/-- Python `dict(sorted(new_dict.items()))`: the unique arrangement of the
(unique-keyed) entries in ascending key order. -/
def sortEntries : List (String × Json) → List (String × Json)
  | [] => []
  | x :: rest => insertEntry x (sortEntries rest)

/-! ## Base64url (the encoding layer of the external Fernet library)

Python's `base64.urlsafe_b64encode`/`urlsafe_b64decode` restricted to the
alphabet (the model rejects characters outside it instead of discarding
them; either way such strings are undecryptable). -/

/-- The base64url alphabet. -/
def b64chars : List Char :=
  "ABCDEFGHIJKLMNOPQRSTUVWXYZabcdefghijklmnopqrstuvwxyz0123456789-_".data

/-- The character of a six-bit value. -/
def encDigit (n : Nat) : Char := b64chars.getD n 'A'

/-- The six-bit value of an alphabet character. -/
def decDigit (c : Char) : Option Nat :=
  (b64chars.enum.find? (fun p => p.2 == c)).map (fun p => p.1)

/-- Base64url-encode a byte list, with `'='` padding. -/
def b64encodeList : List Nat → List Char
  | [] => []
  | [b1] => [encDigit (b1 / 4), encDigit (b1 % 4 * 16), '=', '=']
  | [b1, b2] =>
    [encDigit (b1 / 4), encDigit (b1 % 4 * 16 + b2 / 16), encDigit (b2 % 16 * 4), '=']
  | b1 :: b2 :: b3 :: rest =>
    encDigit (b1 / 4) :: encDigit (b1 % 4 * 16 + b2 / 16) ::
      encDigit (b2 % 16 * 4 + b3 / 64) :: encDigit (b3 % 64) :: b64encodeList rest

/-- Base64url-decode a character list; `none` on any malformed input. -/
def b64decodeList : List Char → Option (List Nat)
  | [] => some []
  | c1 :: c2 :: c3 :: c4 :: rest =>
    match decDigit c1, decDigit c2 with
    | some s1, some s2 =>
      if c3 = '=' then
        if c4 = '=' ∧ rest = [] then some [s1 * 4 + s2 / 16] else none
      else
        match decDigit c3 with
        | some s3 =>
          if c4 = '=' then
            if rest = [] then some [s1 * 4 + s2 / 16, s2 % 16 * 16 + s3 / 4] else none
          else
            match decDigit c4 with
            | some s4 =>
              (b64decodeList rest).map
                (fun bs => (s1 * 4 + s2 / 16) :: (s2 % 16 * 16 + s3 / 4) :: (s3 % 4 * 64 + s4) :: bs)
            | none => none
        | none => none
    | _, _ => none
  | _ => none

/-! ## Byte serialization for the Fernet token model -/

/-- Big-endian bytes of `n`, `w` bytes wide (`n` is taken mod `256 ^ w`). -/
def beBytes : Nat → Nat → List Nat
  | 0, _ => []
  | w + 1, n => n / 256 ^ w % 256 :: beBytes w n

/-- The value of a big-endian byte list. -/
def beVal (bs : List Nat) : Nat := bs.foldl (fun a b => a * 256 + b) 0

/-- Plaintext characters to bytes: three big-endian bytes per code point. -/
def strBytes : List Char → List Nat
  | [] => []
  | c :: rest => beBytes 3 c.toNat ++ strBytes rest

/-- Bytes back to characters; `none` if the length is not a multiple of 3. -/
def charsOfBytes : List Nat → Option (List Char)
  | [] => some []
  | b1 :: b2 :: b3 :: rest =>
    (charsOfBytes rest).map (fun cs => Char.ofNat (b1 * 65536 + b2 * 256 + b3) :: cs)
  | _ => none

/-- One step of the keyed authentication tag. -/
def hashStep (a b : Nat) : Nat := (a * 131 + b + 11) % 2 ^ 64

/-- The keyed authentication tag over timestamp and message bytes (the model
of Fernet's HMAC check: decryption recomputes and compares it). -/
def macTag (key t : Nat) (msg : List Nat) : Nat :=
  (beBytes 8 t ++ msg).foldl hashStep (key % 2 ^ 64)

/-- The byte layout of a Fernet token in this model:
version byte `128` ∥ 8-byte timestamp ∥ 8-byte tag ∥ message bytes. -/
def tokenBytes (key t : Nat) (msg : List Char) : List Nat :=
  128 :: (beBytes 8 t ++ (beBytes 8 (macTag key t (strBytes msg)) ++ strBytes msg))

/-- Parse and authenticate a Fernet token: base64url-decode, check the
version byte and the tag, and recover the timestamp and plaintext. -/
def fernetParse (key : Nat) (tok : List Char) : Option (Nat × List Char)  :=
  match b64decodeList tok with
  | none => none
  | some [] => none
  | some (v :: rest) =>
    if v = 128 then
      if rest.length < 16 then none
      else
        let t := beVal (rest.take 8)
        let tag := beVal ((rest.drop 8).take 8)
        let msg := rest.drop 16
        if tag = macTag key t msg then
          (charsOfBytes msg).map (fun cs => (t, cs))
        else none
    else none

/-- `Fernet.encrypt_at_time(msg, t)`: the base64url token string. -/
def fernetEncryptAtTime (key t : Nat) (msg : String) : String :=
  ⟨b64encodeList (tokenBytes key t msg.data)⟩

/-- `Fernet.decrypt(tok, ttl)` at current time `now`: reject undecryptable
tokens and tokens whose issue time is more than `ttl` seconds old. -/
def fernetDecryptTtl (key ttl now : Nat) (tok : String) : Option String :=
  match fernetParse key tok.data with
  | none => none
  | some (t, cs) => if t + ttl < now then none else some ⟨cs⟩

/-! ## The `Cryptography` class of `src/main.py` -/

/-- `Cryptography.encrypt`: Fernet-encrypt at the current time and strip
every `"="` (Python `.replace("=", "")`). -/
def Cryptography.encrypt (key now : Nat) (s : String) : String :=
  ⟨(fernetEncryptAtTime key now s).data.filter (fun c => c ≠ '=')⟩

/-- The padding reconstruction `_input.encode() + b'=' * (-len(_input) % 4)`
of `Cryptography.decrypt`. -/
def padChars (s : String) : List Char :=
  s.data ++ List.replicate ((4 - s.data.length % 4) % 4) '='

/-- `Cryptography.decrypt`: re-append `'=' * (-len(input) % 4)` and
Fernet-decrypt with `ttl=3600`; `none` is the `InvalidToken` outcome. -/
def Cryptography.decrypt (key now : Nat) (s : String) : Option String :=
  fernetDecryptTtl key 3600 now ⟨padChars s⟩

/-! ## JSON serialization (`json.dumps` / `json.loads`)

`json.dumps` is modelled in full over `Json` with the default separators
`", "` and `": "`; string escaping is modelled minimally (backslash and
double quote), which preserves the codec's round-trip contract.
`json.loads` is modelled on the grammar the codec actually mints:
`{"file_id": <string>}` optionally followed by `"mime_type": <string>`. -/

/-- Escape one character of a JSON string literal. -/
def escChar (c : Char) : List Char := if c = '"' ∨ c = '\\' then ['\\', c] else [c]

/-- Escape the characters of a JSON string literal. -/
def escList : List Char → List Char
  | [] => []
  | c :: rest => escChar c ++ escList rest

mutual

/-- Model of Python `json.dumps` over JSON trees. -/
def dumpJson : Json → List Char
  | .null => "null".data
  | .bool true => "true".data
  | .bool false => "false".data
  | .num n => (toString n).data
  | .str s => '"' :: (escList s.data ++ ['"'])
  | .arr l => '[' :: (dumpList l ++ [']'])
  | .obj es => '\x7b' :: (dumpEntries es ++ ['\x7d'])

/-- Serialize sequence elements, `", "`-separated. -/
def dumpList : List Json → List Char
  | [] => []
  | [j] => dumpJson j
  | j :: j2 :: rest => dumpJson j ++ (',' :: ' ' :: dumpList (j2 :: rest))

/-- Serialize object entries, `", "`-separated, `": "` after each key. -/
def dumpEntries : List (String × Json) → List Char
  | [] => []
  | [(k, v)] => '"' :: (escList k.data ++ ('"' :: ':' :: ' ' :: dumpJson v))
  | (k, v) :: e :: rest =>
    '"' :: (escList k.data ++
      ('"' :: ':' :: ' ' :: (dumpJson v ++ (',' :: ' ' :: dumpEntries (e :: rest)))))

end

/-- Parse a JSON string body after its opening quote; returns the unescaped
content and the input remaining after the closing quote. -/
def parseJString : List Char → Option (List Char × List Char)
  | [] => none
  | c :: rest =>
    if c = '"' then some ([], rest)
    else if c = '\\' then
      match rest with
      | [] => none
      | d :: rest2 =>
        if d = '"' ∨ d = '\\' then (parseJString rest2).map (fun p => (d :: p.1, p.2))
        else none
    else (parseJString rest).map (fun p => (c :: p.1, p.2))

/-- Consume an exact literal from the front of the input. -/
def stripLit (lit l : List Char) : Option (List Char) :=
  if lit.isPrefixOf l then some (l.drop lit.length) else none

/-- The characters `{"file_id": "` opening every payload the codec mints. -/
def payloadPre : List Char :=
  ['\x7b', '"', 'f', 'i', 'l', 'e', '_', 'i', 'd', '"', ':', ' ', '"']

/-- The characters `, "mime_type": "` separating the optional mime entry. -/
def payloadMid : List Char :=
  [',', ' ', '"', 'm', 'i', 'm', 'e', '_', 't', 'y', 'p', 'e', '"', ':', ' ', '"']

/-- The closing brace of a payload. -/
def payloadClose : List Char := ['\x7d']

/-- Model of `json.loads`, restricted to the payload objects this codec
mints: `{"file_id": <string>}` with an optional `"mime_type": <string>`. -/
def parseMediaPayload (s : String) : Option Json :=
  match stripLit payloadPre s.data with
  | none => none
  | some l1 =>
    match parseJString l1 with
    | none => none
    | some (fid, rest) =>
      if rest = payloadClose then some (.obj [("file_id", .str ⟨fid⟩)])
      else
        match stripLit payloadMid rest with
        | none => none
        | some l2 =>
          match parseJString l2 with
          | none => none
          | some (m, rest2) =>
            if rest2 = payloadClose then
              some (.obj [("file_id", .str ⟨fid⟩), ("mime_type", .str ⟨m⟩)])
            else none

/-- `Cryptography.encrypt_json`: serialize and encrypt.  (The docstring in
the source claims a timestamp is added to the dictionary; the code adds
none — the timestamp lives in the Fernet token itself.) -/
def Cryptography.encrypt_json (key now : Nat) (d : Json) : String :=
  Cryptography.encrypt key now ⟨dumpJson d⟩

/-- `Cryptography.decrypt_json`: decrypt and parse. -/
def Cryptography.decrypt_json (key now : Nat) (s : String) : Option Json :=
  (Cryptography.decrypt key now s).bind parseMediaPayload

/-! ## The `PyrogramResponse` normalizer -/

/-- `PyrogramResponse.__init__`: the base URL derived from the inbound
request's hostname — `http://localhost:8000` for `localhost`, otherwise
`https://` prepended to the hostname.  The request's scheme is never
consulted. -/
def PyrogramResponse.hostOf (host : String) : String :=
  if host = "localhost" then "http://localhost:8000" else "https://" ++ host

/-- `PyrogramResponse.file_id_`: mint the media token for a field value and
its (possibly falsy) mime sibling and wrap it in `{base}/media/{token}`. -/
def PyrogramResponse.file_id_ (host : String) (key now : Nat) (fid mime : Json) : String :=
  let data : List (String × Json) := [("file_id", fid)]
  let data := if mime.truthy then data ++ [("mime_type", mime)] else data
  PyrogramResponse.hostOf host ++ "/media/" ++ Cryptography.encrypt_json key now (.obj data)

mutual

/-- The `for key, value in _dict.items()` loop of `process_dict`: `orig` is
the dict being iterated (the closure's `_dict`, used by the mime `.get`),
`acc` is the `new_dict` built so far.  Dict- and list-typed values are
re-processed through `procItem`, which performs exactly the
`isinstance` dispatch of the source. -/
def procEntries (host : String) (key now : Nat) (orig : List (String × Json)) :
    List (String × Json) → List (String × Json) → List (String × Json)
  | [], acc => acc
  | (k, v) :: rest, acc =>
    let acc1 := if isFileIdKeyB k then
        let mime := getDefault orig (mimeKeyOf k)
        if mime.truthy then
          setKey acc (urlKeyOf k) (.str (PyrogramResponse.file_id_ host key now v mime))
        else
          setKey acc (urlKeyOf k) (.str (PyrogramResponse.file_id_ host key now v (.str "")))
      else acc
    let acc2 := setKey acc1 k v
    let acc3 := match v with
      | .obj _ => setKey acc2 k (procItem host key now v)
      | .arr _ => setKey acc2 k (procItem host key now v)
      | _ => acc2
    procEntries host key now orig rest acc3

/-- `process_list`: the source's `return new_list` sits *inside* the `for`
loop, so only the first element is processed and returned; an empty list
falls through the loop and the function returns Python `None`. -/
def procList (host : String) (key now : Nat) : List Json → Json
  | [] => .null
  | item :: _ => .arr [procItem host key now item]

/-- The `isinstance` dispatch applied to one value: dicts run the loop on an
empty `new_dict` and then `dict(sorted(new_dict.items()))`, lists run
`process_list`, leaves pass through. -/
def procItem (host : String) (key now : Nat) : Json → Json
  | .obj d => .obj (sortEntries (procEntries host key now d d []))
  | .arr l => procList host key now l
  | j => j

end

/-- `process_dict`: the loop on an empty `new_dict`, then key-sorting. -/
def procDict (host : String) (key now : Nat) (d : List (String × Json)) :
    List (String × Json) :=
  sortEntries (procEntries host key now d d [])

/-- `PyrogramResponse.process_file_ids` (the top-level dispatch).  A value
that is neither a dict nor a list falls through both branches and Python
returns `None`. -/
def PyrogramResponse.process_file_ids (host : String) (key now : Nat) : Json → Json
  | .obj d => .obj (procDict host key now d)
  | .arr l => procList host key now l
  | _ => .null

/-- `PyrogramResponse.build` on the JSON tree of a backend object: the
`str`/`jsonpickle.decode` serialization boundary is modelled as the
identity on the tree (enum replacement has already happened upstream, on
the live object graph — see `replaceEnums`), so `build` is
`process_file_ids`. -/
def PyrogramResponse.build (host : String) (key now : Nat) (data : Json) : Json :=
  PyrogramResponse.process_file_ids host key now data

mutual

/-- Count the fields of a tree whose key satisfies `p`. -/
def countKeys (p : String → Bool) : Json → Nat
  | .obj es => countKeysEntries p es
  | .arr l => countKeysList p l
  | _ => 0

/-- Count matching fields in an object's entries and their subtrees. -/
def countKeysEntries (p : String → Bool) : List (String × Json) → Nat
  | [] => 0
  | (k, v) :: rest =>
    (if p k then 1 else 0) + countKeys p v + countKeysEntries p rest

/-- Count matching fields inside sequence elements. -/
def countKeysList (p : String → Bool) : List Json → Nat
  | [] => 0
  | j :: rest => countKeys p j + countKeysList p rest

end

mutual

/-- Remove every generated media-URL field (`file_url` / `*_file_url`),
recursively — the strip step of the idempotence property. -/
def stripUrls : Json → Json
  | .obj es => .obj (stripUrlsEntries es)
  | .arr l => .arr (stripUrlsList l)
  | j => j

/-- Strip URL fields from object entries. -/
def stripUrlsEntries : List (String × Json) → List (String × Json)
  | [] => []
  | (k, v) :: rest =>
    if isUrlKeyB k then stripUrlsEntries rest else (k, stripUrls v) :: stripUrlsEntries rest

/-- Strip URL fields inside sequence elements. -/
def stripUrlsList : List Json → List Json
  | [] => []
  | j :: rest => stripUrls j :: stripUrlsList rest

end

/-! ## `replace_enum_types_with_names` over the live object graph

Python mutates the caller's objects in place (`setattr` while walking);
the mutation is modelled by explicit state passing over object trees: the
function's return value *is* the post-state of the graph the caller handed
in (Python returns the very object it mutated). -/

/-- A node of the backend's live (pre-serialization) object graph: an object
with a `__dict__` of attributes, an enum member (whose own `__dict__` holds
only underscore-prefixed attributes, so the walk never rewrites inside it),
a list, or a plain scalar. -/
inductive PyObj where
  | objNode : List (String × PyObj) → PyObj
  | enumNode : String → PyObj
  | listNode : List PyObj → PyObj
  | leaf : Json → PyObj

mutual

/-- Boolean equality of object graphs. -/
def pyObjBeq : PyObj → PyObj → Bool
  | .objNode a, .objNode b => pyAttrsBeq a b
  | .enumNode a, .enumNode b => a == b
  | .listNode a, .listNode b => pyListBeq a b
  | .leaf a, .leaf b => jsonBeq a b
  | _, _ => false

/-- Boolean equality of attribute lists. -/
def pyAttrsBeq : List (String × PyObj) → List (String × PyObj) → Bool
  | [], [] => true
  | (k, v) :: as, (k', v') :: bs => k == k' && pyObjBeq v v' && pyAttrsBeq as bs
  | _, _ => false

/-- Boolean equality of object lists. -/
def pyListBeq : List PyObj → List PyObj → Bool
  | [], [] => true
  | a :: as, b :: bs => pyObjBeq a b && pyListBeq as bs
  | _, _ => false

end

mutual

theorem pyObjBeq_iff : (a b : PyObj) → (pyObjBeq a b = true ↔ a = b)
  | .objNode l, b => by
    cases b <;> simp [pyObjBeq]
    case objNode l' => exact pyAttrsBeq_iff l l'
  | .enumNode s, b => by cases b <;> simp [pyObjBeq]
  | .listNode l, b => by
    cases b <;> simp [pyObjBeq]
    case listNode l' => exact pyListBeq_iff l l'
  | .leaf j, b => by
    cases b <;> simp [pyObjBeq]
    case leaf j' => rw [jsonBeq_iff j j']

theorem pyAttrsBeq_iff : (a b : List (String × PyObj)) → (pyAttrsBeq a b = true ↔ a = b)
  | [], b => by cases b <;> simp [pyAttrsBeq]
  | (k, v) :: xs, b => by
    cases b <;> simp [pyAttrsBeq]
    case cons y ys =>
      obtain ⟨k', v'⟩ := y
      rw [pyObjBeq_iff v v', pyAttrsBeq_iff xs ys]
      simp [Prod.ext_iff, and_assoc]

theorem pyListBeq_iff : (a b : List PyObj) → (pyListBeq a b = true ↔ a = b)
  | [], b => by cases b <;> simp [pyListBeq]
  | x :: xs, b => by
    cases b <;> simp [pyListBeq]
    case cons y ys => rw [pyObjBeq_iff x y, pyListBeq_iff xs ys]

end

instance : DecidableEq PyObj := fun a b =>
  decidable_of_iff (pyObjBeq a b = true) (pyObjBeq_iff a b)

/-- `attr.startswith("_")` on an attribute name. -/
def isUnderscored (k : String) : Bool :=
  match k.data with
  | '_' :: _ => true
  | _ => false

/-- Python `str.title()`: the first letter of each alphabetic run is
upper-cased, the rest lower-cased. -/
def titleChars (prevAlpha : Bool) : List Char → List Char
  | [] => []
  | c :: rest =>
    if c.isAlpha then
      (if prevAlpha then c.toLower else c.toUpper) :: titleChars true rest
    else c :: titleChars false rest

/-- `attr_value.name.title()` applied to an enum member's symbolic name. -/
def pythonTitle (s : String) : String := ⟨titleChars false s.data⟩

mutual

/-- `PyrogramResponse.replace_enum_types_with_names`: walk the `__dict__` of
an object, skipping underscore-prefixed attributes; enum-valued attributes
are overwritten (`setattr`) with their title-cased names; everything else
is rewritten recursively.  The returned tree is the post-state of the
caller's graph. -/
def replaceEnums : PyObj → PyObj
  | .objNode attrs => .objNode (replaceEnumsAttrs attrs)
  | .enumNode n => .enumNode n
  | .listNode items => .listNode (replaceEnumsList items)
  | .leaf j => .leaf j

/-- The attribute walk (`for attr in obj.__dict__`). -/
def replaceEnumsAttrs : List (String × PyObj) → List (String × PyObj)
  | [] => []
  | (k, v) :: rest =>
    if isUnderscored k then (k, v) :: replaceEnumsAttrs rest
    else
      match v with
      | .enumNode n => (k, .leaf (.str (pythonTitle n))) :: replaceEnumsAttrs rest
      | .objNode a => (k, replaceEnums (.objNode a)) :: replaceEnumsAttrs rest
      | .listNode a => (k, replaceEnums (.listNode a)) :: replaceEnumsAttrs rest
      | .leaf a => (k, replaceEnums (.leaf a)) :: replaceEnumsAttrs rest

/-- The list comprehension branch. -/
def replaceEnumsList : List PyObj → List PyObj
  | [] => []
  | v :: rest => replaceEnums v :: replaceEnumsList rest

end

mutual

/-- No enum member sits where the walk would rewrite one: in a
non-underscore attribute, or anywhere below one. -/
def noEnumAttrValues : PyObj → Bool
  | .objNode attrs => noEnumAttrValuesAttrs attrs
  | .enumNode _ => true
  | .listNode items => noEnumAttrValuesList items
  | .leaf _ => true

/-- The attribute-list form of `noEnumAttrValues`. -/
def noEnumAttrValuesAttrs : List (String × PyObj) → Bool
  | [] => true
  | (k, v) :: rest =>
    (if isUnderscored k then true
     else (match v with
           | .enumNode _ => false
           | .objNode _ => true
           | .listNode _ => true
           | .leaf _ => true) && noEnumAttrValues v) &&
      noEnumAttrValuesAttrs rest

/-- The list form of `noEnumAttrValues`. -/
def noEnumAttrValuesList : List PyObj → Bool
  | [] => true
  | v :: rest => noEnumAttrValues v && noEnumAttrValuesList rest

end

/-! ## The endpoint handlers -/

/-- `pyrogram.enums.ChatType`. -/
inductive ChatType where
  | PRIVATE | BOT | GROUP | CHANNEL | SUPERGROUP
deriving DecidableEq, Repr

/-- The kinds the gateway exposes: `(ChatType.CHANNEL, ChatType.GROUP,
ChatType.SUPERGROUP)`. -/
def allowedChatTypes : List ChatType := [.CHANNEL, .GROUP, .SUPERGROUP]

/-- The backend exceptions the handlers catch (`UsernameNotOccupied`,
`ChannelPrivate`). -/
inductive BackendError where
  | usernameNotOccupied | channelPrivate
deriving DecidableEq, Repr

/-- A resolved chat: its `type` attribute and the JSON tree of the whole
object (after enum replacement and serialization). -/
structure Chat where
  type : ChatType
  data : Json

/-- A yielded history message: its `message.chat.type` and the JSON tree of
the message after `del message.chat` (and enum replacement). -/
structure Message where
  chatType : ChatType
  data : Json

/-- The outcome of a handler: an HTTP status and, on success, a JSON body. -/
structure HttpResult where
  status : Nat
  body : Option Json
deriving DecidableEq

/-- `GET /chat/{username}`: backend exceptions map to 400; a resolved chat
whose type is not a channel/group/supergroup maps to 403; otherwise the
normalized chat is returned with 200. -/
def get_chat (host : String) (key now : Nat) (backend : Except BackendError Chat) :
    HttpResult :=
  match backend with
  | .error _ => ⟨400, none⟩
  | .ok resp =>
    if resp.type ∈ allowedChatTypes then
      ⟨200, some (PyrogramResponse.build host key now resp.data)⟩
    else ⟨403, none⟩

/-- The `limit=` literal `get_messages` passes to `get_chat_history`. -/
def historyRequestLimit : Nat := 20

/-- `GET /messages/{username}`: the chat-kind check runs on the first
yielded message only (`if not i and ...`); each message is normalized after
its chat back-reference is deleted; backend exceptions map to 400. -/
def get_messages (host : String) (key now : Nat)
    (backend : Except BackendError (List Message)) : HttpResult :=
  match backend with
  | .error _ => ⟨400, none⟩
  | .ok [] => ⟨200, some (.arr [])⟩
  | .ok (m0 :: ms) =>
    if m0.chatType ∈ allowedChatTypes then
      ⟨200, some (.arr ((m0 :: ms).map (fun m => PyrogramResponse.build host key now m.data)))⟩
    else ⟨403, none⟩

example : sortEntries [("b", .null), ("a", .num 1)] = [("a", .num 1), ("b", .null)] := by decide
example : String.mk (dumpJson (.obj [("file_id", .str "ab"), ("mime_type", .str "x/y")]))
    = "\x7b\"file_id\": \"ab\", \"mime_type\": \"x/y\"\x7d" := by decide
example : Cryptography.decrypt_json 7 1005
    (Cryptography.encrypt_json 7 1000 (.obj [("file_id", .str "ab\"c")]))
    = some (.obj [("file_id", .str "ab\"c")]) := by decide
example : Cryptography.decrypt 7 1005 (Cryptography.encrypt 7 1000 "hi!") = some "hi!" := by decide
example : Cryptography.decrypt 7 (1000 + 3601) (Cryptography.encrypt 7 1000 "hi!") = none := by decide
example : Cryptography.decrypt 8 1005 (Cryptography.encrypt 7 1000 "hi!") = none := by decide
example : urlKeyOf "photo_file_id" = "photo_file_url" := by decide
example : urlKeyOf "file_id" = "file_url" := by decide
example : mimeKeyOf "a_file_id_file_id" = "a_mime_type_mime_type" := by decide
example : isFileIdKeyB "file_id" = true := by decide
example : isFileIdKeyB "x_file_idz" = false := by decide

/-! # Claim theorems -/

/-- **C1** (code bug): media-substitution coverage fails on the code as
written.  On the input tree `[{"file_id": "a"}, {"file_id": "b"}]` — two
media-id fields — the misindented `return new_list` inside `process_list`'s
loop drops the second element entirely, so the output carries exactly one
generated `file_url` field where the claim requires two. -/
theorem C1_coverage_fails_on_truncated_list :
    countKeys isFileIdKeyB (.arr [.obj [("file_id", .str "a")], .obj [("file_id", .str "b")]]) = 2 ∧
    countKeys isUrlKeyB (PyrogramResponse.process_file_ids "example.com" 5 1000
      (.arr [.obj [("file_id", .str "a")], .obj [("file_id", .str "b")]])) = 1 := by
  decide

/-- **C4** (code bug): a node with no media fields and no enum fields is
*not* returned structurally identical.  On `{"a": [1, 2]}` the misindented
`return` inside `process_list`'s loop truncates the two-element sequence to
its first element, so the output differs from the re-sorted input. -/
theorem C4_sequence_not_preserved :
    PyrogramResponse.process_file_ids "example.com" 5 1000
        (.obj [("a", .arr [.num 1, .num 2])]) = .obj [("a", .arr [.num 1])] ∧
    (Json.obj [("a", .arr [.num 1])]) ≠ .obj [("a", .arr [.num 1, .num 2])] := by
  decide

/-- **C10** (counterexample): the generated URL's scheme is *not* taken from
the inbound request.  `PyrogramResponse.__init__` receives only the
hostname and hardwires `https://` (or `http://localhost:8000`), so for an
inbound plain-HTTP request on `example.com` the generated URL does not
start with the request's scheme `http://`. -/
theorem C10_scheme_not_from_request :
    PyrogramResponse.hostOf "example.com" = "https://example.com" ∧
    ("http://".data.isPrefixOf
      (PyrogramResponse.file_id_ "example.com" 5 1000 (.str "x") (.str "")).data) = false ∧
    ("https://".data.isPrefixOf
      (PyrogramResponse.file_id_ "example.com" 5 1000 (.str "x") (.str "")).data) = true := by
  decide

/-- **C10** (amended): every generated media URL is absolute and of the form
`https://{host}/media/{token}` — with the *host* taken from the inbound
request's hostname but the *scheme* fixed — except that hostname
`localhost` yields `http://localhost:8000/media/{token}`; the token is the
encryption of the payload carrying the original field value and its truthy
mime sibling. -/
theorem C10_amended_url_shape (host : String) (key now : Nat) (v m : Json)
    (h : host ≠ "localhost") :
    PyrogramResponse.file_id_ host key now v m =
      "https://" ++ host ++ "/media/" ++ Cryptography.encrypt_json key now
        (.obj (("file_id", v) :: if m.truthy then [("mime_type", m)] else [])) ∧
    PyrogramResponse.file_id_ "localhost" key now v m =
      "http://localhost:8000" ++ "/media/" ++ Cryptography.encrypt_json key now
        (.obj (("file_id", v) :: if m.truthy then [("mime_type", m)] else [])) := by
  constructor <;> simp [PyrogramResponse.file_id_, PyrogramResponse.hostOf, h] <;>
    cases m.truthy <;> simp

/-- Witness for `C10_amended_url_shape` at `host := "example.com"`. -/
theorem C10_amended_url_shape_witness :
    PyrogramResponse.file_id_ "example.com" 5 1000 (.str "x") (.str "t/u") =
      "https://" ++ "example.com" ++ "/media/" ++ Cryptography.encrypt_json 5 1000
        (.obj (("file_id", .str "x") ::
          if (Json.str "t/u").truthy then [("mime_type", .str "t/u")] else [])) :=
  (C10_amended_url_shape "example.com" 5 1000 (.str "x") (.str "t/u") (by decide)).1

/-- **C6** (counterexample): when the backend reports the chat is private
(`ChannelPrivate`), `get_chat` responds 400, not the claimed 403 — the
exception is caught by the same clause as `UsernameNotOccupied`. -/
theorem C6_private_chat_gives_400 :
    (get_chat "example.com" 5 1000 (.error .channelPrivate)).status = 400 ∧
    (get_chat "example.com" 5 1000 (.error .channelPrivate)).status ≠ 403 := by
  decide

/-- **C6** (amended): `get_chat` responds 403 exactly when the handle
resolves to a chat whose kind is not channel/group/supergroup; it responds
400 (never 404, never 403) both when the handle does not resolve
(`UsernameNotOccupied`) and when the backend reports the chat is private
(`ChannelPrivate`); it responds 200 exactly on a resolved allowed kind. -/
theorem C6_amended_status_characterization (host : String) (key now : Nat)
    (r : Except BackendError Chat) :
    ((get_chat host key now r).status = 403 ↔ ∃ c, r = .ok c ∧ c.type ∉ allowedChatTypes) ∧
    ((get_chat host key now r).status = 400 ↔ ∃ e, r = .error e) ∧
    ((get_chat host key now r).status = 200 ↔ ∃ c, r = .ok c ∧ c.type ∈ allowedChatTypes) := by
  cases r with
  | error e => simp [get_chat]
  | ok c =>
    by_cases h : c.type ∈ allowedChatTypes <;> simp [get_chat, h]

/-- **C5** (confirmed): for `get_messages`, the chat-kind check consults
only the first yielded message: a disallowed first kind fails the whole
request with 403 whatever follows; an allowed first kind yields status 200
with exactly one normalized message per yielded message (each already
stripped of its chat back-reference, see `Message.data`), in yield order,
and the page stays within the `limit=20` the handler requests. -/
theorem C5_first_element_kind_check (host : String) (key now : Nat)
    (m0 : Message) (ms : List Message) :
    (m0.chatType ∉ allowedChatTypes →
      get_messages host key now (.ok (m0 :: ms)) = ⟨403, none⟩) ∧
    (m0.chatType ∈ allowedChatTypes →
      get_messages host key now (.ok (m0 :: ms)) =
        ⟨200, some (.arr ((m0 :: ms).map
          (fun m => PyrogramResponse.build host key now m.data)))⟩ ∧
      ((m0 :: ms).map (fun m => PyrogramResponse.build host key now m.data)).length
        = (m0 :: ms).length ∧
      ((m0 :: ms).length ≤ historyRequestLimit →
        ((m0 :: ms).map (fun m => PyrogramResponse.build host key now m.data)).length ≤ 20)) := by
  refine ⟨fun h => ?_, fun h => ⟨?_, by simp, fun hlen => ?_⟩⟩
  · simp [get_messages, h]
  · simp [get_messages, h]
  · simpa [historyRequestLimit] using hlen

/-- Witness for `C5_first_element_kind_check`: a private first message is
rejected with 403 even though a channel message follows, and a supergroup
first message followed by a private-chat message passes with both messages
normalized in order. -/
theorem C5_first_element_kind_check_witness :
    (get_messages "example.com" 5 1000
      (.ok [⟨.PRIVATE, .obj []⟩, ⟨.CHANNEL, .obj []⟩]) = ⟨403, none⟩) ∧
    (get_messages "example.com" 5 1000
      (.ok [⟨.SUPERGROUP, .obj []⟩, ⟨.PRIVATE, .obj []⟩]) =
        ⟨200, some (.arr ([(⟨.SUPERGROUP, .obj []⟩ : Message), ⟨.PRIVATE, .obj []⟩].map
          (fun m => PyrogramResponse.build "example.com" 5 1000 m.data)))⟩) :=
  ⟨(C5_first_element_kind_check "example.com" 5 1000 ⟨.PRIVATE, .obj []⟩
      [⟨.CHANNEL, .obj []⟩]).1 (by decide),
   ((C5_first_element_kind_check "example.com" 5 1000 ⟨.SUPERGROUP, .obj []⟩
      [⟨.PRIVATE, .obj []⟩]).2 (by decide)).1⟩

mutual

theorem replaceEnums_eq_self : (t : PyObj) → noEnumAttrValues t = true → replaceEnums t = t
  | .objNode attrs, h => by
    rw [replaceEnums, replaceEnumsAttrs_eq_self attrs (by simpa [noEnumAttrValues] using h)]
  | .enumNode n, _ => rfl
  | .listNode items, h => by
    rw [replaceEnums, replaceEnumsList_eq_self items (by simpa [noEnumAttrValues] using h)]
  | .leaf j, _ => rfl

theorem replaceEnumsAttrs_eq_self : (l : List (String × PyObj)) →
    noEnumAttrValuesAttrs l = true → replaceEnumsAttrs l = l
  | [], _ => rfl
  | (k, v) :: rest, h => by
    rw [noEnumAttrValuesAttrs.eq_def, Bool.and_eq_true] at h
    by_cases hu : isUnderscored k
    · cases v <;>
        simp only [replaceEnumsAttrs, if_pos hu, replaceEnumsAttrs_eq_self rest h.2]
    · have h1 := h.1
      rw [if_neg hu, Bool.and_eq_true] at h1
      cases v with
      | enumNode n => simp at h1
      | objNode a =>
        simp only [replaceEnumsAttrs, if_neg hu, replaceEnums_eq_self _ h1.2,
          replaceEnumsAttrs_eq_self rest h.2]
      | listNode a =>
        simp only [replaceEnumsAttrs, if_neg hu, replaceEnums_eq_self _ h1.2,
          replaceEnumsAttrs_eq_self rest h.2]
      | leaf a =>
        simp only [replaceEnumsAttrs, if_neg hu, replaceEnums_eq_self _ h1.2,
          replaceEnumsAttrs_eq_self rest h.2]

theorem replaceEnumsList_eq_self : (l : List PyObj) →
    noEnumAttrValuesList l = true → replaceEnumsList l = l
  | [], _ => rfl
  | v :: rest, h => by
    rw [noEnumAttrValuesList, Bool.and_eq_true] at h
    rw [replaceEnumsList, replaceEnums_eq_self v h.1, replaceEnumsList_eq_self rest h.2]

end

/-- **C8** (counterexample): the build pipeline does *not* leave the
caller's raw object graph unmodified — `replace_enum_types_with_names`
overwrites enum-valued attributes in place (`setattr`), so the post-state
of a graph with an enum-typed field differs from its pre-state. -/
theorem C8_enum_attribute_mutated :
    replaceEnums (.objNode [("type", .enumNode "PRIVATE")])
      = .objNode [("type", .leaf (.str "Private"))] ∧
    PyObj.objNode [("type", .leaf (.str "Private"))]
      ≠ .objNode [("type", .enumNode "PRIVATE")] := by
  decide

/-- **C8** (amended): the build pipeline holds no mutable state shared
across requests beyond the read-only key and connection handle, but it is
pure only up to its in-place enum rewriting: on any graph whose
non-underscore attributes hold no enum members, `replace_enum_types_with_names`
leaves the caller's object graph unmodified; graphs with enum-valued
fields are mutated in place (their enum attributes are overwritten with
title-cased names). -/
theorem C8_amended_pure_without_enums (t : PyObj) (h : noEnumAttrValues t = true) :
    replaceEnums t = t :=
  replaceEnums_eq_self t h

/-- Witness for `C8_amended_pure_without_enums` on a nested enum-free graph
(an underscore-prefixed enum attribute is skipped by the walk, so it may
remain). -/
theorem C8_amended_pure_without_enums_witness :
    noEnumAttrValues (.objNode [("a", .listNode [.leaf (.num 3)]),
      ("_raw", .enumNode "RAW"), ("b", .objNode [("c", .leaf (.str "s"))])]) = true ∧
    replaceEnums (.objNode [("a", .listNode [.leaf (.num 3)]),
      ("_raw", .enumNode "RAW"), ("b", .objNode [("c", .leaf (.str "s"))])]) =
      .objNode [("a", .listNode [.leaf (.num 3)]),
        ("_raw", .enumNode "RAW"), ("b", .objNode [("c", .leaf (.str "s"))])] :=
  ⟨by decide, C8_amended_pure_without_enums _ (by decide)⟩

/-! ## Round-trip of the token codec (towards C2 and C3) -/

theorem decDigit_encDigit : ∀ n < 64, decDigit (encDigit n) = some n := by decide

theorem encDigit_ne_eq (n : Nat) : encDigit n ≠ '=' := by
  by_cases h : n < 64
  · exact (by decide : ∀ m < 64, encDigit m ≠ '=') n h
  · unfold encDigit
    rw [List.getD_eq_default]
    · decide
    · have hl : b64chars.length = 64 := by decide
      omega

/-- `'=' = encDigit n` is impossible, in the orientation membership
rewriting produces. -/
theorem eq_ne_encDigit (n : Nat) : '=' ≠ encDigit n := fun h => encDigit_ne_eq n h.symm

/-- Base64url decoding inverts encoding on genuine byte lists. -/
theorem b64decode_encode : (bs : List Nat) → (∀ b ∈ bs, b < 256) →
    b64decodeList (b64encodeList bs) = some bs
  | [], _ => rfl
  | [b1], h => by
    have hb1 : b1 < 256 := h b1 (by simp)
    have e1 : decDigit (encDigit (b1 / 4)) = some (b1 / 4) := decDigit_encDigit _ (by omega)
    have e2 : decDigit (encDigit (b1 % 4 * 16)) = some (b1 % 4 * 16) :=
      decDigit_encDigit _ (by omega)
    simp [b64encodeList, b64decodeList, e1, e2]
    omega
  | [b1, b2], h => by
    have hb1 : b1 < 256 := h b1 (by simp)
    have hb2 : b2 < 256 := h b2 (by simp)
    have e1 : decDigit (encDigit (b1 / 4)) = some (b1 / 4) := decDigit_encDigit _ (by omega)
    have e2 : decDigit (encDigit (b1 % 4 * 16 + b2 / 16)) = some (b1 % 4 * 16 + b2 / 16) :=
      decDigit_encDigit _ (by omega)
    have e3 : decDigit (encDigit (b2 % 16 * 4)) = some (b2 % 16 * 4) :=
      decDigit_encDigit _ (by omega)
    simp [b64encodeList, b64decodeList, e1, e2, e3, encDigit_ne_eq]
    omega
  | b1 :: b2 :: b3 :: rest, h => by
    have hb1 : b1 < 256 := h b1 (by simp)
    have hb2 : b2 < 256 := h b2 (by simp)
    have hb3 : b3 < 256 := h b3 (by simp)
    have ih := b64decode_encode rest (fun b hb => h b (by simp [hb]))
    have e1 : decDigit (encDigit (b1 / 4)) = some (b1 / 4) := decDigit_encDigit _ (by omega)
    have e2 : decDigit (encDigit (b1 % 4 * 16 + b2 / 16)) = some (b1 % 4 * 16 + b2 / 16) :=
      decDigit_encDigit _ (by omega)
    have e3 : decDigit (encDigit (b2 % 16 * 4 + b3 / 64)) = some (b2 % 16 * 4 + b3 / 64) :=
      decDigit_encDigit _ (by omega)
    have e4 : decDigit (encDigit (b3 % 64)) = some (b3 % 64) := decDigit_encDigit _ (by omega)
    simp [b64encodeList, b64decodeList, e1, e2, e3, e4, encDigit_ne_eq, ih]
    omega

/-- The shape of an encoding: an `'='`-free body plus at most two `'='`,
with total length a multiple of four. -/
theorem b64encode_shape : (bs : List Nat) →
    ∃ body p, b64encodeList bs = body ++ List.replicate p '=' ∧ p < 4 ∧
      ('=' ∉ body) ∧ (body.length + p) % 4 = 0
  | [] => ⟨[], 0, rfl, by omega, by simp, by simp⟩
  | [b1] =>
    ⟨[encDigit (b1 / 4), encDigit (b1 % 4 * 16)], 2, rfl, by omega,
      by simp [eq_ne_encDigit], by simp⟩
  | [b1, b2] =>
    ⟨[encDigit (b1 / 4), encDigit (b1 % 4 * 16 + b2 / 16), encDigit (b2 % 16 * 4)], 1, rfl,
      by omega, by simp [eq_ne_encDigit], by simp⟩
  | b1 :: b2 :: b3 :: rest => by
    obtain ⟨body, p, heq, hp, hne, hmod⟩ := b64encode_shape rest
    refine ⟨encDigit (b1 / 4) :: encDigit (b1 % 4 * 16 + b2 / 16) ::
      encDigit (b2 % 16 * 4 + b3 / 64) :: encDigit (b3 % 64) :: body, p, ?_, hp, ?_, ?_⟩
    · rw [b64encodeList, heq]
      simp
    · simp [eq_ne_encDigit]
      exact hne
    · simp only [List.length_cons]
      omega

/-- Stripping the padding and re-deriving it from the length recovers the
token: the `replace("=", "")` of `encrypt` and the `'=' * (-len % 4)` of
`decrypt` compose to the identity on genuine tokens. -/
theorem pad_strip_encode (bs : List Nat) :
    padChars ⟨(b64encodeList bs).filter (fun c => c ≠ '=')⟩ = b64encodeList bs := by
  obtain ⟨body, p, heq, hp, hne, hmod⟩ := b64encode_shape bs
  have h1 : body.filter (fun c => c ≠ '=') = body :=
    List.filter_eq_self.2 (fun c hc => decide_eq_true (fun h => hne (h ▸ hc)))
  have h2 : (List.replicate p '=').filter (fun c => c ≠ '=') = [] :=
    List.filter_eq_nil_iff.2 (fun c hc => by simp [List.eq_of_mem_replicate hc])
  have hbody : (b64encodeList bs).filter (fun c => c ≠ '=') = body := by
    rw [heq, List.filter_append, h1, h2, List.append_nil]
  rw [padChars, hbody, heq]
  congr 1
  have hpp : (4 - body.length % 4) % 4 = p := by omega
  rw [hpp]

/-- `String.data` of the anonymous constructor. -/
theorem string_data_mk (l : List Char) : (⟨l⟩ : String).data = l := rfl

/-- Structure eta for strings. -/
theorem string_mk_data (s : String) : (⟨s.data⟩ : String) = s := rfl

/-- Accumulator law for the big-endian value fold. -/
theorem foldl_be_acc : (bs : List Nat) → (a : Nat) →
    bs.foldl (fun x b => x * 256 + b) a =
      a * 256 ^ bs.length + bs.foldl (fun x b => x * 256 + b) 0
  | [], a => by simp
  | b :: bs, a => by
    rw [List.foldl_cons, List.foldl_cons, foldl_be_acc bs (a * 256 + b),
      foldl_be_acc bs (0 * 256 + b)]
    simp [List.length_cons]
    ring

/-- `beVal` on a cons. -/
theorem beVal_cons (b : Nat) (bs : List Nat) :
    beVal (b :: bs) = b * 256 ^ bs.length + beVal bs := by
  simp only [beVal, List.foldl_cons]
  rw [foldl_be_acc bs (0 * 256 + b)]
  ring

/-- `beBytes` produces exactly `w` bytes. -/
theorem beBytes_length : (w n : Nat) → (beBytes w n).length = w
  | 0, _ => rfl
  | w + 1, n => by rw [beBytes, List.length_cons, beBytes_length w n]

/-- Every `beBytes` byte is below 256. -/
theorem beBytes_mem_lt : (w n : Nat) → ∀ b ∈ beBytes w n, b < 256
  | 0, _ => by simp [beBytes]
  | w + 1, n => by
    rw [beBytes]
    intro b hb
    rcases List.mem_cons.1 hb with h | h
    · omega
    · exact beBytes_mem_lt w n b h

/-- Decoding a big-endian byte string recovers the value mod `256 ^ w`. -/
theorem beVal_beBytes : (w n : Nat) → beVal (beBytes w n) = n % 256 ^ w
  | 0, n => by simp [beBytes, beVal, Nat.mod_one]
  | w + 1, n => by
    rw [beBytes, beVal_cons, beBytes_length, beVal_beBytes w n]
    rw [pow_succ, Nat.mod_mul]
    ring

/-- Every plaintext byte is below 256. -/
theorem strBytes_mem_lt : (cs : List Char) → ∀ b ∈ strBytes cs, b < 256
  | [] => by simp [strBytes]
  | c :: cs => by
    rw [strBytes]
    intro b hb
    rcases List.mem_append.1 hb with h | h
    · exact beBytes_mem_lt 3 c.toNat b h
    · exact strBytes_mem_lt cs b h

/-- A character's code point fits in three bytes. -/
theorem char_toNat_lt (c : Char) : c.toNat < 16777216 := by
  have hv := c.valid
  rcases hv with h | ⟨h1, h2⟩
  · have : c.val.toNat < 55296 := h
    simp only [Char.toNat]
    omega
  · have : c.val.toNat < 1114112 := h2
    simp only [Char.toNat]
    omega

/-- Byte decoding inverts the three-byte character encoding. -/
theorem charsOfBytes_strBytes : (cs : List Char) → charsOfBytes (strBytes cs) = some cs
  | [] => rfl
  | c :: cs => by
    have hlt := char_toNat_lt c
    have h3 : beBytes 3 c.toNat =
        [c.toNat / 65536 % 256, c.toNat / 256 % 256, c.toNat % 256] := by
      show beBytes 3 c.toNat = _
      rw [beBytes, beBytes, beBytes, beBytes]
      norm_num
    rw [strBytes, h3]
    show charsOfBytes (_ :: _ :: _ :: strBytes cs) = _
    rw [charsOfBytes, charsOfBytes_strBytes cs]
    have harith : c.toNat / 65536 % 256 * 65536 + c.toNat / 256 % 256 * 256 + c.toNat % 256
        = c.toNat := by omega
    simp [harith, Char.ofNat_toNat]

/-- The tag fold stays below `2 ^ 64`. -/
theorem foldl_hashStep_lt : (bs : List Nat) → (a : Nat) → a < 2 ^ 64 →
    bs.foldl hashStep a < 2 ^ 64
  | [], a, h => h
  | b :: bs, a, _ => by
    rw [List.foldl_cons]
    exact foldl_hashStep_lt bs _ (Nat.mod_lt _ (by norm_num))

/-- The authentication tag fits in its eight-byte field. -/
theorem macTag_lt (key t : Nat) (msg : List Nat) : macTag key t msg < 2 ^ 64 :=
  foldl_hashStep_lt _ _ (Nat.mod_lt _ (by norm_num))

/-- Every token byte is below 256. -/
theorem tokenBytes_mem_lt (key t : Nat) (msg : List Char) :
    ∀ b ∈ tokenBytes key t msg, b < 256 := by
  intro b hb
  rw [tokenBytes] at hb
  rcases List.mem_cons.1 hb with h | h
  · omega
  rcases List.mem_append.1 h with h | h
  · exact beBytes_mem_lt _ _ b h
  rcases List.mem_append.1 h with h | h
  · exact beBytes_mem_lt _ _ b h
  · exact strBytes_mem_lt _ b h

/-- Parsing a freshly minted token recovers its timestamp and plaintext. -/
theorem fernetParse_tokenBytes (key t : Nat) (msg : String) (ht : t < 2 ^ 64) :
    fernetParse key (b64encodeList (tokenBytes key t msg.data)) = some (t, msg.data) := by
  have hdec : b64decodeList (b64encodeList (tokenBytes key t msg.data))
      = some (tokenBytes key t msg.data) :=
    b64decode_encode _ (tokenBytes_mem_lt key t msg.data)
  have h256 : (256 : Nat) ^ 8 = 2 ^ 64 := by norm_num
  set M := macTag key t (strBytes msg.data) with hM
  have hlen : ¬ ((beBytes 8 t ++ (beBytes 8 M ++ strBytes msg.data)).length < 16) := by
    rw [List.length_append, List.length_append, beBytes_length, beBytes_length]
    omega
  have htake : (beBytes 8 t ++ (beBytes 8 M ++ strBytes msg.data)).take 8 = beBytes 8 t := by
    rw [← beBytes_length 8 t]
    exact List.take_left _ _
  have hdrop : (beBytes 8 t ++ (beBytes 8 M ++ strBytes msg.data)).drop 8
      = beBytes 8 M ++ strBytes msg.data := by
    rw [← beBytes_length 8 t]
    exact List.drop_left _ _
  have htake2 : (beBytes 8 M ++ strBytes msg.data).take 8 = beBytes 8 M := by
    rw [← beBytes_length 8 M]
    exact List.take_left _ _
  have hdrop16 : (beBytes 8 t ++ (beBytes 8 M ++ strBytes msg.data)).drop 16
      = strBytes msg.data := by
    rw [show (16 : Nat) = 8 + 8 from rfl, ← List.drop_drop, hdrop]
    rw [← beBytes_length 8 M]
    exact List.drop_left _ _
  have hbody : tokenBytes key t msg.data
      = 128 :: (beBytes 8 t ++ (beBytes 8 M ++ strBytes msg.data)) := by
    rw [tokenBytes, hM]
  rw [hbody] at hdec
  simp only [fernetParse, hbody, hdec]
  rw [if_pos trivial, if_neg hlen, htake, hdrop, htake2, hdrop16]
  rw [beVal_beBytes, beVal_beBytes, h256, Nat.mod_eq_of_lt ht,
    Nat.mod_eq_of_lt (macTag_lt key t (strBytes msg.data))]
  rw [← hM, if_pos rfl, charsOfBytes_strBytes]
  rfl

/-- The source's `decrypt` after `encrypt`: padding is reconstructed and the
only possible failure is the ttl check. -/
theorem decrypt_encrypt (key t now : Nat) (s : String) (ht : t < 2 ^ 64) :
    Cryptography.decrypt key now (Cryptography.encrypt key t s) =
      if t + 3600 < now then none else some s := by
  have henc : Cryptography.encrypt key t s =
      ⟨(b64encodeList (tokenBytes key t s.data)).filter (fun c => c ≠ '=')⟩ := rfl
  rw [henc, Cryptography.decrypt]
  simp only [fernetDecryptTtl, string_data_mk, pad_strip_encode,
    fernetParse_tokenBytes key t s ht]

/-! ## Round-trip of the payload serialization (towards C2) -/

/-- A list is a prefix of itself followed by anything. -/
theorem isPrefixOf_append_self : (l₁ l₂ : List Char) → l₁.isPrefixOf (l₁ ++ l₂) = true
  | [], _ => by simp [List.isPrefixOf]
  | c :: l₁, l₂ => by simp [List.isPrefixOf, isPrefixOf_append_self l₁ l₂]

/-- `stripLit` consumes exactly the literal. -/
theorem stripLit_append (lit xs : List Char) : stripLit lit (lit ++ xs) = some xs := by
  rw [stripLit, if_pos (isPrefixOf_append_self lit xs)]
  rw [List.drop_left]

/-- `parseJString` inverts `escList` up to the closing quote. -/
theorem parseJString_escList : (cs rest : List Char) →
    parseJString (escList cs ++ '"' :: rest) = some (cs, rest)
  | [], rest => by
    rw [show escList [] ++ '"' :: rest = '"' :: rest from rfl]
    rw [parseJString.eq_def]
    simp
  | c :: cs, rest => by
    rw [escList, escChar]
    by_cases h : c = '"' ∨ c = '\\'
    · rw [if_pos h]
      show parseJString ('\\' :: c :: (escList cs ++ '"' :: rest)) = _
      rw [parseJString.eq_def]
      simp only [if_neg (by decide : ¬ ('\\' : Char) = '"'), if_pos rfl, if_pos h,
        parseJString_escList cs rest]
      rfl
    · rw [if_neg h]
      have h1 : c ≠ '"' := fun hh => h (Or.inl hh)
      have h2 : c ≠ '\\' := fun hh => h (Or.inr hh)
      show parseJString (c :: (escList cs ++ '"' :: rest)) = _
      rw [parseJString.eq_def]
      simp only [if_neg h1, if_neg h2, parseJString_escList cs rest]
      rfl

/-- The serialized form of a mime-free payload. -/
theorem dump_payload_noMime (fid : String) :
    dumpJson (.obj [("file_id", .str fid)])
      = payloadPre ++ (escList fid.data ++ ('"' :: payloadClose)) := by
  have hk : escList "file_id".data = "file_id".data := by decide
  rw [dumpJson, dumpEntries, dumpJson, hk]
  simp [payloadPre, payloadClose]

/-- The serialized form of a payload with a mime entry. -/
theorem dump_payload_mime (fid m : String) :
    dumpJson (.obj [("file_id", .str fid), ("mime_type", .str m)])
      = payloadPre ++ (escList fid.data ++ ('"' ::
          (payloadMid ++ (escList m.data ++ ('"' :: payloadClose))))) := by
  have hk : escList "file_id".data = "file_id".data := by decide
  have hm : escList "mime_type".data = "mime_type".data := by decide
  rw [dumpJson, dumpEntries, dumpJson, dumpEntries, dumpJson, hk, hm]
  simp [payloadPre, payloadMid, payloadClose]

/-- `json.loads` recovers a mime-free payload from its `json.dumps`. -/
theorem parseMediaPayload_dump_noMime (fid : String) :
    parseMediaPayload ⟨dumpJson (.obj [("file_id", .str fid)])⟩
      = some (.obj [("file_id", .str fid)]) := by
  rw [parseMediaPayload, string_data_mk, dump_payload_noMime]
  simp only [stripLit_append, parseJString_escList]
  rw [if_pos trivial, string_mk_data]

/-- `json.loads` recovers a payload with a mime entry from its `json.dumps`. -/
theorem parseMediaPayload_dump_mime (fid m : String) :
    parseMediaPayload ⟨dumpJson (.obj [("file_id", .str fid), ("mime_type", .str m)])⟩
      = some (.obj [("file_id", .str fid), ("mime_type", .str m)]) := by
  rw [parseMediaPayload, string_data_mk, dump_payload_mime]
  simp only [stripLit_append, parseJString_escList]
  have hne : payloadMid ++ (escList m.data ++ ('"' :: payloadClose)) ≠ payloadClose := by
    intro h
    have hlen := congrArg List.length h
    simp [payloadMid, payloadClose] at hlen
  rw [if_neg hne, if_pos trivial, string_mk_data, string_mk_data]

/-- **C2** (confirmed): for every payload object `{"file_id": fid}` with an
optional `"mime_type"`, redeeming a token minted at time `t` within the
validity window returns exactly the original payload — no timestamp field
is ever in the dictionary (it lives in the Fernet token) — including the
reconstruction of the base64 padding that minting strips.  (`t < 2 ^ 64`
reflects the 64-bit timestamp field of the Fernet format.) -/
theorem C2_payload_roundtrip (key t now : Nat) (fid : String) (m : Option String)
    (ht : t < 2 ^ 64) (hwin : now ≤ t + 3600) :
    Cryptography.decrypt_json key now (Cryptography.encrypt_json key t
        (.obj (("file_id", .str fid) ::
          (match m with | none => [] | some s => [("mime_type", .str s)]))))
      = some (.obj (("file_id", .str fid) ::
          (match m with | none => [] | some s => [("mime_type", .str s)]))) := by
  rw [Cryptography.decrypt_json, Cryptography.encrypt_json]
  rw [decrypt_encrypt key t now _ ht, if_neg (by omega)]
  cases m with
  | none => simpa using parseMediaPayload_dump_noMime fid
  | some mm => simpa using parseMediaPayload_dump_mime fid mm

/-- Witness for `C2_payload_roundtrip`: a concrete payload with a mime type,
minted at 1000 and redeemed at the window's edge. -/
theorem C2_payload_roundtrip_witness :
    (1000 : Nat) < 2 ^ 64 ∧ (4600 : Nat) ≤ 1000 + 3600 ∧
    Cryptography.decrypt_json 7 4600 (Cryptography.encrypt_json 7 1000
        (.obj [("file_id", .str "abc"), ("mime_type", .str "image/png")]))
      = some (.obj [("file_id", .str "abc"), ("mime_type", .str "image/png")]) :=
  ⟨by decide, by decide,
    C2_payload_roundtrip 7 1000 4600 "abc" (some "image/png") (by decide) (by decide)⟩

/-- **C3** (confirmed): `Cryptography.decrypt` fails — with the codec's one
undifferentiated `InvalidToken` outcome, modelled as `none` — exactly when
the padded input does not parse and authenticate under the current key, or
the embedded issue time is more than 3600 seconds old; and for a token
minted at `t`, redemption one second before the expiry boundary `t + 3600`
succeeds with the original plaintext while one second after it fails.
(Padding reconstruction failure surfaces as a parse failure: Python's
byte-level padding concatenation itself never raises.) -/
theorem C3_redeem_failure_characterization :
    (∀ key now : Nat, ∀ s : String, Cryptography.decrypt key now s = none ↔
      (fernetParse key (padChars s) = none ∨
        ∃ t cs, fernetParse key (padChars s) = some (t, cs) ∧ t + 3600 < now)) ∧
    (∀ key t : Nat, ∀ msg : String, t < 2 ^ 64 →
      Cryptography.decrypt key (t + 3599) (Cryptography.encrypt key t msg) = some msg ∧
      Cryptography.decrypt key (t + 3601) (Cryptography.encrypt key t msg) = none) := by
  constructor
  · intro key now s
    rw [Cryptography.decrypt, fernetDecryptTtl, string_data_mk]
    cases hp : fernetParse key (padChars s) with
    | none => simp
    | some p =>
      obtain ⟨t, cs⟩ := p
      by_cases h : t + 3600 < now <;> simp [h]
  · intro key t msg ht
    refine ⟨?_, ?_⟩ <;> rw [decrypt_encrypt key t _ msg ht]
    · rw [if_neg (by omega)]
    · rw [if_pos (by omega)]

/-- Witness for `C3_redeem_failure_characterization`: the boundary behavior
at a concrete mint time, plus the characterization applied to a concrete
garbage token. -/
theorem C3_redeem_failure_characterization_witness :
    ((1000 : Nat) < 2 ^ 64 ∧
      Cryptography.decrypt 7 (1000 + 3599) (Cryptography.encrypt 7 1000 "m") = some "m" ∧
      Cryptography.decrypt 7 (1000 + 3601) (Cryptography.encrypt 7 1000 "m") = none) ∧
    (Cryptography.decrypt 7 50 "!!" = none ↔
      (fernetParse 7 (padChars "!!") = none ∨
        ∃ t cs, fernetParse 7 (padChars "!!") = some (t, cs) ∧ t + 3600 < 50)) :=
  ⟨⟨by decide, (C3_redeem_failure_characterization.2 7 1000 "m" (by decide)).1,
     (C3_redeem_failure_characterization.2 7 1000 "m" (by decide)).2⟩,
   C3_redeem_failure_characterization.1 7 50 "!!"⟩

/-! ## Key-shape lemmas for the media-substitution pass (towards C7 and C9) -/

/-- Evaluation of the replacement scan when the head is not the start of a
`"_file_id"` occurrence. -/
theorem replaceFid_cons_eval (rep : List Char) (c : Char) (rest : List Char)
    (hnomatch : ∀ rest1, c = '_' →
      rest = 'f' :: 'i' :: 'l' :: 'e' :: '_' :: 'i' :: 'd' :: rest1 → False) :
    replaceFid rep (c :: rest) = c :: replaceFid rep rest := by
  rw [replaceFid.eq_def]
  split
  · exfalso
    rename_i heq
    injection heq with hc hrest
    exact hnomatch _ hc hrest
  · rename_i heq
    injection heq with hc hrest
    rw [hc, hrest]
  · rename_i heq
    simp at heq

/-- `"_file_id"` has no nontrivial border, so a trailing occurrence cannot
straddle a replaced one: replacing inside a key that ends in `"_file_id"`
yields a key that ends in the replacement. -/
theorem replaceFid_suffix (rep : List Char) :
    ∀ l, fileIdPat <:+ l → rep <:+ replaceFid rep l := by
  intro l
  induction l using replaceFid.induct rep with
  | case1 rest ih =>
    intro h
    show rep <:+ rep ++ replaceFid rep rest
    cases rest with
    | nil => simp [replaceFid]
    | cons a rest' =>
      obtain ⟨u, hu⟩ := h
      have hu' : u ++ fileIdPat = fileIdPat ++ (a :: rest') := hu
      have hlen : u.length = rest'.length + 1 := by
        have hl := congrArg List.length hu'
        simp [fileIdPat] at hl
        omega
      by_cases hge : 7 ≤ rest'.length
      · have hdrop : (u ++ fileIdPat).drop 8 = (fileIdPat ++ (a :: rest')).drop 8 := by
          rw [hu']
        rw [List.drop_append_of_le_length (by omega),
          List.drop_left' (by simp [fileIdPat])] at hdrop
        have hsfx : fileIdPat <:+ (a :: rest') := ⟨u.drop 8, hdrop⟩
        exact (ih hsfx).trans (List.suffix_append _ _)
      · exfalso
        have hdrop : (u ++ fileIdPat).drop u.length
            = (fileIdPat ++ (a :: rest')).drop u.length := by rw [hu']
        rw [List.drop_left' rfl,
          List.drop_append_of_le_length (by simp [fileIdPat]; omega)] at hdrop
        have htk : fileIdPat.take (8 - u.length) = fileIdPat.drop u.length := by
          have hc := congrArg (List.take (8 - u.length)) hdrop
          rw [List.take_left' (by simp [fileIdPat])] at hc
          exact hc
        have himp : ∀ r < 8, 0 < r → fileIdPat.take (8 - r) ≠ fileIdPat.drop r := by decide
        exact himp u.length (by omega) (by omega) htk
  | case2 c rest hnomatch ih =>
    intro h
    rw [replaceFid_cons_eval rep c rest hnomatch]
    obtain ⟨u, hu⟩ := h
    cases u with
    | nil =>
      exfalso
      have hu' : fileIdPat = c :: rest := hu
      have hc : c = '_' := by injection hu' with h1 h2; exact h1.symm
      have hrest : rest = 'f' :: 'i' :: 'l' :: 'e' :: '_' :: 'i' :: 'd' :: [] := by
        injection hu' with h1 h2; exact h2.symm
      exact hnomatch [] hc hrest
    | cons a u' =>
      have hu2 : a :: (u' ++ fileIdPat) = c :: rest := hu
      have hrest : u' ++ fileIdPat = rest := by injection hu2
      have hsfx : fileIdPat <:+ rest := ⟨u', hrest⟩
      exact (ih hsfx).trans (List.suffix_cons c _)
  | case3 =>
    intro h
    exfalso
    have hl := h.length_le
    simp [fileIdPat] at hl

/-- The derived URL key of a media-id key: `"file_url"`, or a key ending in
`"_file_url"`. -/
theorem urlKeyOf_shape (k : String) :
    urlKeyOf k = "file_url" ∨ fileUrlPat <:+ (urlKeyOf k).data := by
  rw [urlKeyOf]
  by_cases hs : fileIdPat.isSuffixOf k.data
  · right
    rw [if_pos hs, string_data_mk]
    exact replaceFid_suffix fileUrlPat k.data (List.isSuffixOf_iff_suffix.1 hs)
  · left
    rw [if_neg hs]

/-- The derived mime key of a media-id key: `"mime_type"`, or a key ending
in `"_mime_type"`. -/
theorem mimeKeyOf_shape (k : String) :
    mimeKeyOf k = "mime_type" ∨ mimeTypePat <:+ (mimeKeyOf k).data := by
  rw [mimeKeyOf]
  by_cases hs : fileIdPat.isSuffixOf k.data
  · right
    rw [if_pos hs, string_data_mk]
    exact replaceFid_suffix mimeTypePat k.data (List.isSuffixOf_iff_suffix.1 hs)
  · left
    rw [if_neg hs]

/-- The derived URL key is a media-URL key in the sense of `isUrlKeyB`. -/
theorem isUrlKeyB_urlKeyOf (k : String) : isUrlKeyB (urlKeyOf k) = true := by
  rcases urlKeyOf_shape k with h | h
  · rw [h]; decide
  · rw [isUrlKeyB, Bool.or_eq_true]
    right
    exact List.isSuffixOf_iff_suffix.2 h

/-- A media-URL key is never a media-id key (`"_file_id"` and `"_file_url"`
cannot both be suffixes of one key). -/
theorem urlKey_ne_fileIdKey (u k : String) (hu : isUrlKeyB u = true)
    (hk : isFileIdKeyB k = true) : u ≠ k := by
  intro he
  subst he
  rw [isUrlKeyB, Bool.or_eq_true, beq_iff_eq] at hu
  rw [isFileIdKeyB, Bool.or_eq_true, beq_iff_eq] at hk
  rcases hu with hu | hu <;> rcases hk with hk | hk
  · rw [hk] at hu; exact absurd hu (by decide)
  · rw [hu] at hk; exact absurd hk (by decide)
  · rw [hk] at hu; exact absurd hu (by decide)
  · have h1 := List.isSuffixOf_iff_suffix.1 hu
    have h2 := List.isSuffixOf_iff_suffix.1 hk
    rcases List.suffix_or_suffix_of_suffix h1 h2 with h | h
    · exact absurd (List.isSuffixOf_iff_suffix.2 h) (by decide)
    · exact absurd (List.isSuffixOf_iff_suffix.2 h) (by decide)

/-- A derived URL key never collides with a derived mime key. -/
theorem urlKeyOf_ne_mimeKeyOf (k1 k2 : String) : urlKeyOf k1 ≠ mimeKeyOf k2 := by
  intro he
  rcases urlKeyOf_shape k1 with h1 | h1 <;> rcases mimeKeyOf_shape k2 with h2 | h2
  · rw [he, h2] at h1; exact absurd h1 (by decide)
  · rw [he] at h1
    rw [h1] at h2
    exact absurd (List.isSuffixOf_iff_suffix.2 h2) (by decide)
  · rw [he, h2] at h1
    exact absurd (List.isSuffixOf_iff_suffix.2 h1) (by decide)
  · rw [he] at h1
    rcases List.suffix_or_suffix_of_suffix h1 h2 with h | h
    · exact absurd (List.isSuffixOf_iff_suffix.2 h) (by decide)
    · exact absurd (List.isSuffixOf_iff_suffix.2 h) (by decide)

/-- A derived URL key never collides with a media-id key. -/
theorem urlKeyOf_ne_fileIdKey (k1 k : String) (hk : isFileIdKeyB k = true) :
    urlKeyOf k1 ≠ k :=
  urlKey_ne_fileIdKey (urlKeyOf k1) k (isUrlKeyB_urlKeyOf k1) hk

/-! ## Dict-assignment lemmas -/

/-- The assigned entry is in the dict. -/
theorem mem_setKey_self : (l : List (String × Json)) → (k : String) → (v : Json) →
    (k, v) ∈ setKey l k v
  | [], k, v => by simp [setKey]
  | (k', v') :: rest, k, v => by
    rw [setKey]
    by_cases h : k' = k
    · rw [if_pos h]
      exact List.mem_cons_self _ _
    · rw [if_neg h]
      exact List.mem_cons_of_mem _ (mem_setKey_self rest k v)

/-- Entries under other keys are untouched by an assignment. -/
theorem mem_setKey_of_ne (k : String) (v : Json) (k' : String) (v' : Json)
    (h : k' ≠ k) : ∀ l : List (String × Json), ((k', v') ∈ setKey l k v ↔ (k', v') ∈ l)
  | [] => by simp [setKey, Prod.ext_iff, h]
  | (a, b) :: rest => by
    rw [setKey]
    by_cases ha : a = k
    · rw [if_pos ha]
      simp only [List.mem_cons, Prod.ext_iff]
      subst ha
      simp [h]
    · rw [if_neg ha]
      simp only [List.mem_cons]
      rw [mem_setKey_of_ne k v k' v' h rest]

/-- The keys after an assignment: the assigned key plus the old keys. -/
theorem mem_keys_setKey (k : String) (v : Json) (k' : String) :
    ∀ l : List (String × Json),
      (k' ∈ (setKey l k v).map Prod.fst ↔ k' = k ∨ k' ∈ l.map Prod.fst)
  | [] => by simp [setKey]
  | (a, b) :: rest => by
    rw [setKey]
    by_cases ha : a = k
    · rw [if_pos ha]
      subst ha
      simp
    · rw [if_neg ha]
      simp only [List.map_cons, List.mem_cons]
      rw [mem_keys_setKey k v k' rest]
      tauto

/-! ## The loop body of `process_dict`, characterized -/

/-- The minting stage of one loop iteration: when the key is a media-id
key, write the generated URL under the derived URL key. -/
def procMint (host : String) (key now : Nat) (orig : List (String × Json))
    (k : String) (v : Json) (acc : List (String × Json)) : List (String × Json) :=
  if isFileIdKeyB k then
    let mime := getDefault orig (mimeKeyOf k)
    if mime.truthy then
      setKey acc (urlKeyOf k) (.str (PyrogramResponse.file_id_ host key now v mime))
    else
      setKey acc (urlKeyOf k) (.str (PyrogramResponse.file_id_ host key now v (.str "")))
  else acc

/-- The effect of one iteration of the `process_dict` loop on `new_dict`:
mint (when the key is a media-id key), write the original entry, overwrite
with the re-processed value when it is a container. -/
def procStep (host : String) (key now : Nat) (orig : List (String × Json))
    (k : String) (v : Json) (acc : List (String × Json)) : List (String × Json) :=
  let acc2 := setKey (procMint host key now orig k v acc) k v
  match v with
  | .obj d => setKey acc2 k (procItem host key now (.obj d))
  | .arr l => setKey acc2 k (procItem host key now (.arr l))
  | .null => acc2
  | .bool _ => acc2
  | .num _ => acc2
  | .str _ => acc2

/-- `procEntries` consumes one entry through `procStep`. -/
theorem procEntries_cons (host : String) (key now : Nat)
    (orig : List (String × Json)) (k : String) (v : Json)
    (rest acc : List (String × Json)) :
    procEntries host key now orig ((k, v) :: rest) acc
      = procEntries host key now orig rest (procStep host key now orig k v acc) := by
  cases v <;> rfl

/-- `procEntries` over an append runs the two segments in order. -/
theorem procEntries_append (host : String) (key now : Nat)
    (orig : List (String × Json)) :
    ∀ es1 es2 acc, procEntries host key now orig (es1 ++ es2) acc
      = procEntries host key now orig es2 (procEntries host key now orig es1 acc)
  | [], es2, acc => by rw [procEntries]; rfl
  | (k, v) :: rest, es2, acc => by
    rw [List.cons_append, procEntries_cons, procEntries_cons,
      procEntries_append host key now orig rest es2 _]

/-- Entries under keys the mint does not write survive it. -/
theorem mem_procMint_preserved (host : String) (key now : Nat)
    (orig : List (String × Json)) (k1 : String) (v1 : Json)
    (acc : List (String × Json)) (k : String) (v : Json)
    (hacc : (k, v) ∈ acc) (hurl : isFileIdKeyB k1 = true → k ≠ urlKeyOf k1) :
    (k, v) ∈ procMint host key now orig k1 v1 acc := by
  rw [procMint]
  by_cases hf : isFileIdKeyB k1
  · rw [if_pos hf]
    by_cases ht : (getDefault orig (mimeKeyOf k1)).truthy
    · rw [if_pos ht]
      exact (mem_setKey_of_ne _ _ _ _ (hurl hf) acc).2 hacc
    · rw [if_neg ht]
      exact (mem_setKey_of_ne _ _ _ _ (hurl hf) acc).2 hacc
  · rw [if_neg hf]
    exact hacc

/-- The minted entry is present after the mint stage. -/
theorem mem_procMint_mint (host : String) (key now : Nat)
    (orig : List (String × Json)) (k1 : String) (v1 : Json)
    (acc : List (String × Json)) (hf : isFileIdKeyB k1 = true) :
    (urlKeyOf k1, Json.str (if (getDefault orig (mimeKeyOf k1)).truthy
        then PyrogramResponse.file_id_ host key now v1 (getDefault orig (mimeKeyOf k1))
        else PyrogramResponse.file_id_ host key now v1 (.str "")))
      ∈ procMint host key now orig k1 v1 acc := by
  rw [procMint, if_pos hf]
  by_cases ht : (getDefault orig (mimeKeyOf k1)).truthy
  · rw [if_pos ht, if_pos ht]
    exact mem_setKey_self _ _ _
  · rw [if_neg ht, if_neg ht]
    exact mem_setKey_self _ _ _

/-- An entry under a key the iteration does not write survives `procStep`. -/
theorem mem_procStep_preserved (host : String) (key now : Nat)
    (orig : List (String × Json)) (k1 : String) (v1 : Json)
    (acc : List (String × Json)) (k : String) (v : Json)
    (hacc : (k, v) ∈ acc) (hk : k ≠ k1)
    (hurl : isFileIdKeyB k1 = true → k ≠ urlKeyOf k1) :
    (k, v) ∈ procStep host key now orig k1 v1 acc := by
  have h1 := mem_procMint_preserved host key now orig k1 v1 acc k v hacc hurl
  have h2 := (mem_setKey_of_ne k1 v1 k v hk _).2 h1
  cases v1 with
  | obj d =>
    exact (mem_setKey_of_ne k1 _ k v hk _).2 h2
  | arr l =>
    exact (mem_setKey_of_ne k1 _ k v hk _).2 h2
  | null => exact h2
  | bool b => exact h2
  | num n => exact h2
  | str s => exact h2

/-- The iteration leaves its own entry, with containers re-processed. -/
theorem mem_procStep_self (host : String) (key now : Nat)
    (orig : List (String × Json)) (k1 : String) (v1 : Json)
    (acc : List (String × Json)) :
    (k1, procItem host key now v1) ∈ procStep host key now orig k1 v1 acc := by
  cases v1 with
  | obj d => exact mem_setKey_self _ _ _
  | arr l => exact mem_setKey_self _ _ _
  | null => exact mem_setKey_self _ _ _
  | bool b => exact mem_setKey_self _ _ _
  | num n => exact mem_setKey_self _ _ _
  | str s => exact mem_setKey_self _ _ _

/-- The minted entry survives the rest of its own iteration. -/
theorem mem_procStep_mint (host : String) (key now : Nat)
    (orig : List (String × Json)) (k1 : String) (v1 : Json)
    (acc : List (String × Json)) (hf : isFileIdKeyB k1 = true) :
    (urlKeyOf k1, Json.str (if (getDefault orig (mimeKeyOf k1)).truthy
        then PyrogramResponse.file_id_ host key now v1 (getDefault orig (mimeKeyOf k1))
        else PyrogramResponse.file_id_ host key now v1 (.str "")))
      ∈ procStep host key now orig k1 v1 acc := by
  have h1 := mem_procMint_mint host key now orig k1 v1 acc hf
  have hne : urlKeyOf k1 ≠ k1 := urlKeyOf_ne_fileIdKey k1 k1 hf
  have h2 := (mem_setKey_of_ne k1 v1 _ _ hne _).2 h1
  cases v1 with
  | obj d => exact (mem_setKey_of_ne k1 _ _ _ hne _).2 h2
  | arr l => exact (mem_setKey_of_ne k1 _ _ _ hne _).2 h2
  | null => exact h2
  | bool b => exact h2
  | num n => exact h2
  | str s => exact h2

/-- A key present in `new_dict` (or written by the iteration) is present
afterwards. -/
theorem mem_keys_procStep (host : String) (key now : Nat)
    (orig : List (String × Json)) (k1 : String) (v1 : Json)
    (acc : List (String × Json)) (k : String)
    (h : k ∈ acc.map Prod.fst ∨ k = k1) :
    k ∈ (procStep host key now orig k1 v1 acc).map Prod.fst := by
  have hmint : k ∈ (procMint host key now orig k1 v1 acc).map Prod.fst ∨ k = k1 := by
    rcases h with h | h
    · left
      rw [procMint]
      by_cases hf : isFileIdKeyB k1
      · rw [if_pos hf]
        by_cases ht : (getDefault orig (mimeKeyOf k1)).truthy
        · rw [if_pos ht]
          exact (mem_keys_setKey _ _ _ _).2 (Or.inr h)
        · rw [if_neg ht]
          exact (mem_keys_setKey _ _ _ _).2 (Or.inr h)
      · rw [if_neg hf]
        exact h
    · right
      exact h
  have h2 : k ∈ (setKey (procMint host key now orig k1 v1 acc) k1 v1).map Prod.fst := by
    rcases hmint with h | h
    · exact (mem_keys_setKey _ _ _ _).2 (Or.inr h)
    · exact (mem_keys_setKey _ _ _ _).2 (Or.inl h)
  cases v1 with
  | obj d => exact (mem_keys_setKey _ _ _ _).2 (Or.inr h2)
  | arr l => exact (mem_keys_setKey _ _ _ _).2 (Or.inr h2)
  | null => exact h2
  | bool b => exact h2
  | num n => exact h2
  | str s => exact h2

/-- An entry no remaining iteration writes survives the rest of the loop. -/
theorem procEntries_mem_preserved (host : String) (key now : Nat)
    (orig : List (String × Json)) :
    ∀ (es acc : List (String × Json)) (k : String) (v : Json),
      (k, v) ∈ acc → (∀ p ∈ es, k ≠ p.1) →
      (∀ p ∈ es, isFileIdKeyB p.1 = true → k ≠ urlKeyOf p.1) →
      (k, v) ∈ procEntries host key now orig es acc
  | [], acc, k, v, hacc, _, _ => hacc
  | (k1, v1) :: rest, acc, k, v, hacc, hkeys, hurls => by
    rw [procEntries_cons]
    exact procEntries_mem_preserved host key now orig rest _ k v
      (mem_procStep_preserved host key now orig k1 v1 acc k v hacc
        (hkeys (k1, v1) (List.mem_cons_self _ _))
        (fun hf => hurls (k1, v1) (List.mem_cons_self _ _) hf))
      (fun p hp => hkeys p (List.mem_cons_of_mem _ hp))
      (fun p hp hf => hurls p (List.mem_cons_of_mem _ hp) hf)

/-- In a unique-keyed dict, each entry reaches the final `new_dict` with its
value re-processed, as long as no later mint hits its key. -/
theorem procEntries_mem_entry (host : String) (key now : Nat)
    (orig : List (String × Json)) (es : List (String × Json)) (k : String) (v : Json)
    (hmem : (k, v) ∈ es) (hnd : (es.map Prod.fst).Nodup)
    (hurls : ∀ p ∈ es, isFileIdKeyB p.1 = true → k ≠ urlKeyOf p.1) :
    ∀ acc, (k, procItem host key now v) ∈ procEntries host key now orig es acc := by
  obtain ⟨pre, post, hsplit⟩ := List.append_of_mem hmem
  subst hsplit
  intro acc
  rw [procEntries_append, procEntries_cons]
  rw [List.map_append, List.map_cons, List.nodup_append, List.nodup_cons] at hnd
  have hpost : ∀ p ∈ post, k ≠ p.1 := by
    intro p hp heq
    apply hnd.2.1.1
    rw [heq]
    exact List.mem_map.2 ⟨p, hp, rfl⟩
  exact procEntries_mem_preserved host key now orig post _ k _
    (mem_procStep_self host key now orig k v _)
    hpost
    (fun p hp hf =>
      hurls p (List.mem_append_right pre (List.mem_cons_of_mem _ hp)) hf)

/-- A media-id entry's minted URL reaches the final `new_dict` provided no
input key and no other derived URL key collides with its URL key. -/
theorem procEntries_mem_minted (host : String) (key now : Nat)
    (orig : List (String × Json)) (es : List (String × Json)) (k : String) (v : Json)
    (hmem : (k, v) ∈ es) (hnd : (es.map Prod.fst).Nodup)
    (hf : isFileIdKeyB k = true)
    (h1 : ∀ p ∈ es, p.1 ≠ urlKeyOf k)
    (h2 : ∀ p ∈ es, isFileIdKeyB p.1 = true → p.1 ≠ k → urlKeyOf p.1 ≠ urlKeyOf k) :
    ∀ acc, (urlKeyOf k, Json.str (if (getDefault orig (mimeKeyOf k)).truthy
        then PyrogramResponse.file_id_ host key now v (getDefault orig (mimeKeyOf k))
        else PyrogramResponse.file_id_ host key now v (.str "")))
      ∈ procEntries host key now orig es acc := by
  obtain ⟨pre, post, hsplit⟩ := List.append_of_mem hmem
  subst hsplit
  intro acc
  rw [procEntries_append, procEntries_cons]
  rw [List.map_append, List.map_cons, List.nodup_append, List.nodup_cons] at hnd
  have hpostk : ∀ p ∈ post, p.1 ≠ k := by
    intro p hp heq
    apply hnd.2.1.1
    rw [← heq]
    exact List.mem_map.2 ⟨p, hp, rfl⟩
  exact procEntries_mem_preserved host key now orig post _ _ _
    (mem_procStep_mint host key now orig k v _ hf)
    (fun p hp heq =>
      h1 p (List.mem_append_right pre (List.mem_cons_of_mem _ hp)) heq.symm)
    (fun p hp hpf heq =>
      h2 p (List.mem_append_right pre (List.mem_cons_of_mem _ hp)) hpf
        (hpostk p hp) heq.symm)

/-- No key is ever dropped by the loop. -/
theorem procEntries_mem_keys (host : String) (key now : Nat)
    (orig : List (String × Json)) :
    ∀ (es acc : List (String × Json)) (k : String),
      (k ∈ acc.map Prod.fst ∨ k ∈ es.map Prod.fst) →
      k ∈ (procEntries host key now orig es acc).map Prod.fst
  | [], acc, k, h => by
    rcases h with h | h
    · exact h
    · simp at h
  | (k1, v1) :: rest, acc, k, h => by
    rw [procEntries_cons]
    rcases h with h | h
    · exact procEntries_mem_keys host key now orig rest _ k
        (Or.inl (mem_keys_procStep host key now orig k1 v1 acc k (Or.inl h)))
    · rw [List.map_cons, List.mem_cons] at h
      rcases h with h | h
      · exact procEntries_mem_keys host key now orig rest _ k
          (Or.inl (mem_keys_procStep host key now orig k1 v1 acc k (Or.inr h)))
      · exact procEntries_mem_keys host key now orig rest _ k (Or.inr h)

/-- Insertion keeps the same entries. -/
theorem insertEntry_perm (x : String × Json) :
    ∀ l : List (String × Json), (insertEntry x l).Perm (x :: l)
  | [] => List.Perm.refl _
  | y :: rest => by
    rw [insertEntry]
    by_cases h : entryLe x y
    · rw [if_pos h]
    · rw [if_neg h]
      exact ((insertEntry_perm x rest).cons y).trans (List.Perm.swap x y rest)

/-- Sorting keeps the same entries. -/
theorem sortEntries_perm : ∀ l : List (String × Json), (sortEntries l).Perm l
  | [] => List.Perm.refl _
  | x :: rest => by
    rw [sortEntries]
    exact (insertEntry_perm x (sortEntries rest)).trans ((sortEntries_perm rest).cons x)

/-- Leaves pass through list-element processing unchanged. -/
theorem procItem_leaf (host : String) (key now : Nat) (v : Json)
    (h1 : ∀ d, v ≠ .obj d) (h2 : ∀ l, v ≠ .arr l) :
    procItem host key now v = v := by
  cases v with
  | obj d => exact absurd rfl (h1 d)
  | arr l => exact absurd rfl (h2 l)
  | null => rfl
  | bool _ => rfl
  | num _ => rfl
  | str _ => rfl

/-- **C9** (counterexample): the newly added URL field is *not* always in
the output alongside the originals.  On `{"file_id": "X", "file_url": "y"}`
the input field `file_url` is written after the minted URL (iteration
order) and clobbers it: the output equals the input, and the surviving
`file_url` value `"y"` is not the minted URL. -/
theorem C9_minted_url_clobbered :
    PyrogramResponse.process_file_ids "example.com" 5 1000
        (.obj [("file_id", .str "X"), ("file_url", .str "y")])
      = .obj [("file_id", .str "X"), ("file_url", .str "y")] ∧
    Json.str "y"
      ≠ .str (PyrogramResponse.file_id_ "example.com" 5 1000 (.str "X") (.str "")) := by
  constructor
  · decide
  · decide

/-- **C9** (amended): for every media field of a unique-keyed mapping whose
value is a scalar, the original field and its scalar mime sibling are
retained in the output (scalars unchanged — container values are instead
re-normalized) alongside the newly added URL field, *provided* no input
key equals the derived URL key and no other media field derives the same
URL key; and media substitution removes no input field's key.  (A media-id
key itself can never be clobbered by a mint: `"_file_id"` and
`"_file_url"`/`"_mime_type"` endings are mutually exclusive.) -/
theorem C9_amended_fields_retained (host : String) (key now : Nat)
    (es : List (String × Json)) (k : String) (v : Json)
    (hnd : (es.map Prod.fst).Nodup)
    (hmem : (k, v) ∈ es)
    (hf : isFileIdKeyB k = true)
    (hleaf1 : ∀ d, v ≠ .obj d) (hleaf2 : ∀ l, v ≠ .arr l)
    (h1 : ∀ p ∈ es, p.1 ≠ urlKeyOf k)
    (h2 : ∀ p ∈ es, isFileIdKeyB p.1 = true → p.1 ≠ k → urlKeyOf p.1 ≠ urlKeyOf k) :
    (k, v) ∈ procDict host key now es ∧
    (∀ m, (mimeKeyOf k, m) ∈ es → (∀ d, m ≠ .obj d) → (∀ l, m ≠ .arr l) →
      (mimeKeyOf k, m) ∈ procDict host key now es) ∧
    ((urlKeyOf k, Json.str (if (getDefault es (mimeKeyOf k)).truthy
        then PyrogramResponse.file_id_ host key now v (getDefault es (mimeKeyOf k))
        else PyrogramResponse.file_id_ host key now v (.str "")))
      ∈ procDict host key now es) ∧
    (∀ p ∈ es, p.1 ∈ (procDict host key now es).map Prod.fst) := by
  have hperm := sortEntries_perm (procEntries host key now es es [])
  refine ⟨?_, ?_, ?_, ?_⟩
  · rw [procDict, hperm.mem_iff]
    have h := procEntries_mem_entry host key now es es k v hmem hnd
      (fun p _ _ => Ne.symm (urlKeyOf_ne_fileIdKey p.1 k hf)) []
    rwa [procItem_leaf host key now v hleaf1 hleaf2] at h
  · intro m hm hm1 hm2
    rw [procDict, hperm.mem_iff]
    have h := procEntries_mem_entry host key now es es (mimeKeyOf k) m hm hnd
      (fun p _ _ => Ne.symm (urlKeyOf_ne_mimeKeyOf p.1 k)) []
    rwa [procItem_leaf host key now m hm1 hm2] at h
  · rw [procDict, hperm.mem_iff]
    exact procEntries_mem_minted host key now es es k v hmem hnd hf h1 h2 []
  · intro p hp
    rw [procDict, (hperm.map Prod.fst).mem_iff]
    exact procEntries_mem_keys host key now es es [] p.1
      (Or.inr (List.mem_map.2 ⟨p, hp, rfl⟩))

/-- Witness for `C9_amended_fields_retained` on the mapping
`{"photo_file_id": "AAA", "photo_mime_type": "image/jpeg", "z": 3}`. -/
theorem C9_amended_fields_retained_witness :
    ("photo_file_id", Json.str "AAA") ∈ procDict "example.com" 5 1000
      [("photo_file_id", .str "AAA"), ("photo_mime_type", .str "image/jpeg"),
        ("z", .num 3)] ∧
    ("photo_mime_type", Json.str "image/jpeg") ∈ procDict "example.com" 5 1000
      [("photo_file_id", .str "AAA"), ("photo_mime_type", .str "image/jpeg"),
        ("z", .num 3)] ∧
    (urlKeyOf "photo_file_id", Json.str (if (getDefault
        [("photo_file_id", .str "AAA"), ("photo_mime_type", .str "image/jpeg"),
          ("z", .num 3)] (mimeKeyOf "photo_file_id")).truthy
      then PyrogramResponse.file_id_ "example.com" 5 1000 (.str "AAA") (getDefault
        [("photo_file_id", .str "AAA"), ("photo_mime_type", .str "image/jpeg"),
          ("z", .num 3)] (mimeKeyOf "photo_file_id"))
      else PyrogramResponse.file_id_ "example.com" 5 1000 (.str "AAA") (.str "")))
      ∈ procDict "example.com" 5 1000
        [("photo_file_id", .str "AAA"), ("photo_mime_type", .str "image/jpeg"),
          ("z", .num 3)] := by
  have h := C9_amended_fields_retained "example.com" 5 1000
    [("photo_file_id", .str "AAA"), ("photo_mime_type", .str "image/jpeg"), ("z", .num 3)]
    "photo_file_id" (.str "AAA")
    (by decide) (by decide) (by decide)
    (fun d hh => Json.noConfusion hh) (fun l hh => Json.noConfusion hh)
    (by decide) (by decide)
  exact ⟨h.1,
    h.2.1 (.str "image/jpeg") (by decide)
      (fun d hh => Json.noConfusion hh) (fun l hh => Json.noConfusion hh),
    h.2.2.1⟩

/-! ## The string order underlying `dict(sorted(...))` (towards C7) -/

/-- Strict code-point order on strings (Python `<` on `str`), as a
proposition. -/
def strLtP (a b : String) : Prop := strLtB a.data b.data = true

/-- The non-strict entry order of `sorted(new_dict.items())`, as a
proposition. -/
def entryLeP (a b : String × Json) : Prop := entryLe a b = true

/-- Strict key order on dict entries. -/
def entryLtP (a b : String × Json) : Prop := strLtB a.1.data b.1.data = true

/-- The entries `stripUrls` keeps: the ones not under a generated-URL key. -/
def nonUrlEntry (p : String × Json) : Bool := !isUrlKeyB p.1

mutual

/-- Every mapping node of the tree has strictly sorted keys (the shape
`dict(sorted(new_dict.items()))` guarantees on normalizer output). -/
def SortedTree : Json → Prop
  | .obj es => List.Pairwise strLtP (es.map Prod.fst) ∧ SortedEntries es
  | .arr l => SortedList l
  | .null => True
  | .bool _ => True
  | .num _ => True
  | .str _ => True

/-- All entry values of a mapping satisfy `SortedTree`. -/
def SortedEntries : List (String × Json) → Prop
  | [] => True
  | (_, v) :: rest => SortedTree v ∧ SortedEntries rest

/-- All sequence elements satisfy `SortedTree`. -/
def SortedList : List Json → Prop
  | [] => True
  | j :: rest => SortedTree j ∧ SortedList rest

end

mutual

/-- URL-stripped normalizer output form: every mapping node has strictly
sorted keys, carries no generated-URL key, and holds normal values; every
sequence node is a singleton (the early `return` of `process_list` emits
nothing else); leaves are unrestricted. -/
def NormalTree : Json → Prop
  | .obj es => List.Pairwise strLtP (es.map Prod.fst) ∧ NormalEntries es
  | .arr [] => False
  | .arr [x] => NormalTree x
  | .arr (_ :: _ :: _) => False
  | .null => True
  | .bool _ => True
  | .num _ => True
  | .str _ => True

/-- Entries of a normal-form mapping: no URL keys, normal values. -/
def NormalEntries : List (String × Json) → Prop
  | [] => True
  | (k, v) :: rest => isUrlKeyB k = false ∧ NormalTree v ∧ NormalEntries rest

end

/-- Characters with equal code points are equal. -/
theorem char_eq_of_toNat_eq (c d : Char) (h : c.toNat = d.toNat) : c = d :=
  Char.eq_of_val_eq (UInt32.ext h)

/-- The code-point order is irreflexive. -/
theorem strLtB_irrefl : ∀ l : List Char, strLtB l l = false
  | [] => rfl
  | a :: as => by
    rw [strLtB, if_neg (Nat.lt_irrefl _), if_neg (Nat.lt_irrefl _)]
    exact strLtB_irrefl as

/-- The code-point order is asymmetric. -/
theorem strLtB_asymm : ∀ a b : List Char, strLtB a b = true → strLtB b a = false
  | [], [], h => by simp [strLtB] at h
  | [], _ :: _, _ => rfl
  | _ :: _, [], h => by simp [strLtB] at h
  | a :: as, b :: bs, h => by
    rw [strLtB] at h ⊢
    by_cases h1 : a.toNat < b.toNat
    · rw [if_neg (by omega), if_pos h1]
    · rw [if_neg h1] at h
      by_cases h2 : b.toNat < a.toNat
      · rw [if_pos h2] at h
        exact absurd h (by decide)
      · rw [if_neg h2] at h
        rw [if_neg h2, if_neg h1]
        exact strLtB_asymm as bs h

/-- The code-point order is transitive. -/
theorem strLtB_trans : ∀ a b c : List Char,
    strLtB a b = true → strLtB b c = true → strLtB a c = true
  | [], [], _, h1, _ => by simp [strLtB] at h1
  | [], _ :: _, [], _, h2 => by simp [strLtB] at h2
  | [], _ :: _, _ :: _, _, _ => rfl
  | _ :: _, [], _, h1, _ => by simp [strLtB] at h1
  | _ :: _, _ :: _, [], _, h2 => by simp [strLtB] at h2
  | a :: as, b :: bs, c :: cs, h1, h2 => by
    rw [strLtB] at h1 h2 ⊢
    by_cases hab : a.toNat < b.toNat
    · by_cases hbc : b.toNat < c.toNat
      · rw [if_pos (by omega)]
      · rw [if_neg hbc] at h2
        by_cases hcb : c.toNat < b.toNat
        · rw [if_pos hcb] at h2
          exact absurd h2 (by decide)
        · rw [if_pos (by omega)]
    · rw [if_neg hab] at h1
      by_cases hba : b.toNat < a.toNat
      · rw [if_pos hba] at h1
        exact absurd h1 (by decide)
      · rw [if_neg hba] at h1
        by_cases hbc : b.toNat < c.toNat
        · rw [if_pos (by omega)]
        · rw [if_neg hbc] at h2
          by_cases hcb : c.toNat < b.toNat
          · rw [if_pos hcb] at h2
            exact absurd h2 (by decide)
          · rw [if_neg hcb] at h2
            rw [if_neg (by omega), if_neg (by omega)]
            exact strLtB_trans as bs cs h1 h2

/-- Two lists neither of which is below the other are equal (the order is
connected). -/
theorem strLtB_conn : ∀ a b : List Char,
    strLtB a b = false → strLtB b a = false → a = b
  | [], [], _, _ => rfl
  | [], _ :: _, h1, _ => by simp [strLtB] at h1
  | _ :: _, [], _, h2 => by simp [strLtB] at h2
  | a :: as, b :: bs, h1, h2 => by
    rw [strLtB] at h1 h2
    by_cases hab : a.toNat < b.toNat
    · rw [if_pos hab] at h1
      exact absurd h1 (by decide)
    · by_cases hba : b.toNat < a.toNat
      · rw [if_pos hba] at h2
        exact absurd h2 (by decide)
      · rw [if_neg hab, if_neg hba] at h1
        rw [if_neg hba, if_neg hab] at h2
        rw [char_eq_of_toNat_eq a b (by omega), strLtB_conn as bs h1 h2]

/-- `entryLeP` spelt out on the underlying key comparison. -/
theorem entryLeP_iff (a b : String × Json) :
    entryLeP a b ↔ strLtB b.1.data a.1.data = false := by
  rw [entryLeP, entryLe, Bool.not_eq_true']

/-- The entry order is total. -/
theorem entryLeP_total (a b : String × Json) : entryLeP a b ∨ entryLeP b a := by
  rw [entryLeP_iff, entryLeP_iff]
  by_cases h : strLtB b.1.data a.1.data = true
  · right
    exact strLtB_asymm _ _ h
  · left
    exact Bool.not_eq_true _ ▸ eq_false_of_ne_true h

/-- The entry order is transitive. -/
theorem entryLeP_trans (a b c : String × Json)
    (h1 : entryLeP a b) (h2 : entryLeP b c) : entryLeP a c := by
  rw [entryLeP_iff] at h1 h2 ⊢
  by_contra h
  rw [Bool.not_eq_false] at h
  by_cases hbc : strLtB b.1.data c.1.data = true
  · have := strLtB_trans _ _ _ hbc h
    rw [this] at h1
    exact absurd h1 (by decide)
  · have heq := strLtB_conn _ _ (eq_false_of_ne_true hbc) h2
    rw [heq] at h1
    rw [h] at h1
    exact absurd h1 (by decide)

/-- A non-strict step with distinct keys is strict. -/
theorem entryLtP_of_leP_ne (a b : String × Json)
    (h1 : entryLeP a b) (h2 : a.1 ≠ b.1) : entryLtP a b := by
  rw [entryLeP_iff] at h1
  rw [entryLtP]
  by_contra h
  rw [Bool.not_eq_true] at h
  have hd := strLtB_conn _ _ h h1
  apply h2
  calc a.1 = ⟨a.1.data⟩ := (string_mk_data a.1).symm
    _ = ⟨b.1.data⟩ := by rw [hd]
    _ = b.1 := string_mk_data b.1

/-- A strict step is non-strict. -/
theorem entryLeP_of_ltP (a b : String × Json) (h : entryLtP a b) : entryLeP a b := by
  rw [entryLeP_iff]
  exact strLtB_asymm _ _ h

/-- Strict steps have distinct keys. -/
theorem entryLtP_ne (a b : String × Json) (h : entryLtP a b) : a.1 ≠ b.1 := by
  intro he
  rw [entryLtP, he] at h
  rw [strLtB_irrefl] at h
  exact absurd h (by decide)

instance : IsAntisymm (String × Json) entryLtP where
  antisymm a b h1 h2 := by
    rw [entryLtP] at h1 h2
    rw [strLtB_asymm _ _ h1] at h2
    exact absurd h2 (by decide)

/-! ## Sortedness and key-uniqueness of the loop's output (towards C7) -/

/-- Membership after an insertion. -/
theorem mem_insertEntry (x y : String × Json) (l : List (String × Json)) :
    y ∈ insertEntry x l ↔ y = x ∨ y ∈ l := by
  rw [(insertEntry_perm x l).mem_iff, List.mem_cons]

/-- Insertion into a `entryLeP`-sorted list keeps it sorted. -/
theorem pairwise_insertEntry (x : String × Json) :
    ∀ l : List (String × Json), List.Pairwise entryLeP l →
      List.Pairwise entryLeP (insertEntry x l)
  | [], _ => by simp [insertEntry]
  | y :: rest, h => by
    rw [insertEntry]
    rcases List.pairwise_cons.1 h with ⟨hy, hrest⟩
    by_cases hxy : entryLe x y = true
    · rw [if_pos hxy]
      refine List.pairwise_cons.2 ⟨?_, h⟩
      intro z hz
      rcases List.mem_cons.1 hz with hz | hz
      · rw [hz]
        exact hxy
      · exact entryLeP_trans x y z hxy (hy z hz)
    · rw [if_neg hxy]
      refine List.pairwise_cons.2 ⟨?_, pairwise_insertEntry x rest hrest⟩
      intro z hz
      rcases (mem_insertEntry x z rest).1 hz with hz | hz
      · rw [hz]
        rcases entryLeP_total y x with h' | h'
        · exact h'
        · exact absurd h' hxy
      · exact hy z hz

/-- The insertion sort sorts. -/
theorem pairwise_sortEntries : ∀ l : List (String × Json),
    List.Pairwise entryLeP (sortEntries l)
  | [] => List.Pairwise.nil
  | x :: rest => by
    rw [sortEntries]
    exact pairwise_insertEntry x _ (pairwise_sortEntries rest)

/-- Dict assignment keeps keys unique. -/
theorem nodup_keys_setKey (k : String) (v : Json) :
    ∀ l : List (String × Json), (l.map Prod.fst).Nodup →
      ((setKey l k v).map Prod.fst).Nodup
  | [], _ => by simp [setKey]
  | (a, b) :: rest, h => by
    rw [setKey]
    rw [List.map_cons, List.nodup_cons] at h
    by_cases ha : a = k
    · rw [if_pos ha]
      rw [List.map_cons, List.nodup_cons]
      exact ⟨by rw [← ha]; exact h.1, h.2⟩
    · rw [if_neg ha]
      rw [List.map_cons, List.nodup_cons]
      constructor
      · intro hmem
        rcases (mem_keys_setKey k v a rest).1 hmem with h' | h'
        · exact ha h'
        · exact h.1 h'
      · exact nodup_keys_setKey k v rest h.2

/-- The mint stage keeps keys unique. -/
theorem nodup_keys_procMint (host : String) (key now : Nat)
    (orig : List (String × Json)) (k1 : String) (v1 : Json)
    (acc : List (String × Json)) (h : (acc.map Prod.fst).Nodup) :
    ((procMint host key now orig k1 v1 acc).map Prod.fst).Nodup := by
  rw [procMint]
  by_cases hf : isFileIdKeyB k1
  · rw [if_pos hf]
    by_cases ht : (getDefault orig (mimeKeyOf k1)).truthy
    · rw [if_pos ht]
      exact nodup_keys_setKey _ _ _ h
    · rw [if_neg ht]
      exact nodup_keys_setKey _ _ _ h
  · rw [if_neg hf]
    exact h

/-- Overwriting an assignment: only the second write survives. -/
theorem setKey_setKey : ∀ (l : List (String × Json)) (k : String) (v w : Json),
    setKey (setKey l k v) k w = setKey l k w
  | [], k, v, w => by simp [setKey]
  | (a, b) :: rest, k, v, w => by
    rw [setKey]
    by_cases ha : a = k
    · rw [if_pos ha, setKey, if_pos rfl, setKey, if_pos ha]
    · rw [if_neg ha, setKey, if_neg ha, setKey, if_neg ha, setKey_setKey rest k v w]

/-- One loop iteration, as a single dict assignment after the mint: the raw
write of the original entry is overwritten by the re-processed value (and
leaves re-process to themselves). -/
theorem procStep_eq_setKey (host : String) (key now : Nat)
    (orig : List (String × Json)) (k1 : String) (v1 : Json)
    (acc : List (String × Json)) :
    procStep host key now orig k1 v1 acc
      = setKey (procMint host key now orig k1 v1 acc) k1
          (procItem host key now v1) := by
  cases v1 with
  | obj d => exact setKey_setKey _ _ _ _
  | arr l => exact setKey_setKey _ _ _ _
  | null => rfl
  | bool b => rfl
  | num n => rfl
  | str s => rfl

/-- One loop iteration keeps keys unique. -/
theorem nodup_keys_procStep (host : String) (key now : Nat)
    (orig : List (String × Json)) (k1 : String) (v1 : Json)
    (acc : List (String × Json)) (h : (acc.map Prod.fst).Nodup) :
    ((procStep host key now orig k1 v1 acc).map Prod.fst).Nodup := by
  rw [procStep_eq_setKey]
  exact nodup_keys_setKey _ _ _ (nodup_keys_procMint host key now orig k1 v1 acc h)

/-- The whole loop keeps keys unique. -/
theorem nodup_keys_procEntries (host : String) (key now : Nat)
    (orig : List (String × Json)) :
    ∀ (es acc : List (String × Json)), (acc.map Prod.fst).Nodup →
      ((procEntries host key now orig es acc).map Prod.fst).Nodup
  | [], _, h => h
  | (k1, v1) :: rest, acc, h => by
    rw [procEntries_cons]
    exact nodup_keys_procEntries host key now orig rest _
      (nodup_keys_procStep host key now orig k1 v1 acc h)

/-! ## Provenance of the loop's entries (towards C7) -/

/-- An entry of a dict after an assignment is the assigned pair or an old
entry. -/
theorem mem_setKey_elim (p : String × Json) (k : String) (v : Json) :
    ∀ l : List (String × Json), p ∈ setKey l k v → p = (k, v) ∨ p ∈ l
  | [], h => by
    rw [setKey] at h
    exact Or.inl (List.mem_singleton.1 h)
  | (a, b) :: rest, h => by
    rw [setKey] at h
    by_cases ha : a = k
    · rw [if_pos ha] at h
      rcases List.mem_cons.1 h with h | h
      · exact Or.inl h
      · exact Or.inr (List.mem_cons_of_mem _ h)
    · rw [if_neg ha] at h
      rcases List.mem_cons.1 h with h | h
      · rw [h]
        exact Or.inr (List.mem_cons_self _ _)
      · rcases mem_setKey_elim p k v rest h with h | h
        · exact Or.inl h
        · exact Or.inr (List.mem_cons_of_mem _ h)

/-- An entry after the mint stage is a string under a URL key or an old
entry. -/
theorem mem_procMint_elim (host : String) (key now : Nat)
    (orig : List (String × Json)) (k1 : String) (v1 : Json)
    (acc : List (String × Json)) (p : String × Json)
    (h : p ∈ procMint host key now orig k1 v1 acc) :
    (isUrlKeyB p.1 = true ∧ ∃ s, p.2 = Json.str s) ∨ p ∈ acc := by
  rw [procMint] at h
  by_cases hf : isFileIdKeyB k1
  · rw [if_pos hf] at h
    by_cases ht : (getDefault orig (mimeKeyOf k1)).truthy
    · rw [if_pos ht] at h
      rcases mem_setKey_elim p _ _ _ h with h | h
      · left
        rw [h]
        exact ⟨isUrlKeyB_urlKeyOf k1, _, rfl⟩
      · exact Or.inr h
    · rw [if_neg ht] at h
      rcases mem_setKey_elim p _ _ _ h with h | h
      · left
        rw [h]
        exact ⟨isUrlKeyB_urlKeyOf k1, _, rfl⟩
      · exact Or.inr h
  · rw [if_neg hf] at h
    exact Or.inr h

/-- An entry after one loop iteration is the re-processed current entry, a
string under a URL key, or an old entry. -/
theorem mem_procStep_elim (host : String) (key now : Nat)
    (orig : List (String × Json)) (k1 : String) (v1 : Json)
    (acc : List (String × Json)) (p : String × Json)
    (h : p ∈ procStep host key now orig k1 v1 acc) :
    p = (k1, procItem host key now v1) ∨
      (isUrlKeyB p.1 = true ∧ ∃ s, p.2 = Json.str s) ∨ p ∈ acc := by
  rw [procStep_eq_setKey] at h
  rcases mem_setKey_elim p _ _ _ h with h | h
  · exact Or.inl h
  · exact Or.inr (mem_procMint_elim host key now orig k1 v1 acc p h)

/-- Every entry of the final `new_dict` is a re-processed input entry, a
string under a generated-URL key, or came in with the accumulator. -/
theorem mem_procEntries_elim (host : String) (key now : Nat)
    (orig : List (String × Json)) :
    ∀ (es acc : List (String × Json)) (p : String × Json),
      p ∈ procEntries host key now orig es acc →
      (∃ q ∈ es, p = (q.1, procItem host key now q.2)) ∨
        (isUrlKeyB p.1 = true ∧ ∃ s, p.2 = Json.str s) ∨ p ∈ acc
  | [], _, p, h => Or.inr (Or.inr h)
  | (k1, v1) :: rest, acc, p, h => by
    rw [procEntries_cons] at h
    rcases mem_procEntries_elim host key now orig rest _ p h with h | h | h
    · obtain ⟨q, hq, he⟩ := h
      exact Or.inl ⟨q, List.mem_cons_of_mem _ hq, he⟩
    · exact Or.inr (Or.inl h)
    · rcases mem_procStep_elim host key now orig k1 v1 acc p h with h | h | h
      · exact Or.inl ⟨(k1, v1), List.mem_cons_self _ _, h⟩
      · exact Or.inr (Or.inl h)
      · exact Or.inr (Or.inr h)

/-- A key present after the mint stage is the derived URL key or an old
key. -/
theorem keys_procMint_elim (host : String) (key now : Nat)
    (orig : List (String × Json)) (k1 : String) (v1 : Json)
    (acc : List (String × Json)) (k' : String)
    (h : k' ∈ (procMint host key now orig k1 v1 acc).map Prod.fst) :
    k' = urlKeyOf k1 ∨ k' ∈ acc.map Prod.fst := by
  rw [procMint] at h
  by_cases hf : isFileIdKeyB k1
  · rw [if_pos hf] at h
    by_cases ht : (getDefault orig (mimeKeyOf k1)).truthy
    · rw [if_pos ht] at h
      exact (mem_keys_setKey _ _ _ _).1 h
    · rw [if_neg ht] at h
      exact (mem_keys_setKey _ _ _ _).1 h
  · rw [if_neg hf] at h
    exact Or.inr h

/-- A key present after one loop iteration is the current key, the derived
URL key, or an old key. -/
theorem keys_procStep_elim (host : String) (key now : Nat)
    (orig : List (String × Json)) (k1 : String) (v1 : Json)
    (acc : List (String × Json)) (k' : String)
    (h : k' ∈ (procStep host key now orig k1 v1 acc).map Prod.fst) :
    k' = k1 ∨ k' = urlKeyOf k1 ∨ k' ∈ acc.map Prod.fst := by
  rw [procStep_eq_setKey] at h
  rcases (mem_keys_setKey _ _ _ _).1 h with h | h
  · exact Or.inl h
  · exact Or.inr (keys_procMint_elim host key now orig k1 v1 acc k' h)

/-! ## The strip step, characterized (towards C7) -/

/-- Stripping keeps exactly the non-URL entries, with stripped values. -/
theorem stripUrlsEntries_eq : ∀ l : List (String × Json),
    stripUrlsEntries l
      = (l.filter nonUrlEntry).map (fun p => (p.1, stripUrls p.2))
  | [] => rfl
  | (k, v) :: rest => by
    rw [stripUrlsEntries]
    by_cases hk : isUrlKeyB k
    · rw [if_pos hk, List.filter_cons_of_neg (by simp [nonUrlEntry, hk]),
        stripUrlsEntries_eq rest]
    · rw [if_neg hk, List.filter_cons_of_pos (by simp [nonUrlEntry, hk]),
        List.map_cons, stripUrlsEntries_eq rest]

/-- The keys surviving a strip: the non-URL keys, in order. -/
theorem keys_stripUrlsEntries : ∀ l : List (String × Json),
    (stripUrlsEntries l).map Prod.fst
      = (l.map Prod.fst).filter (fun k => !isUrlKeyB k)
  | [] => rfl
  | (k, v) :: rest => by
    rw [stripUrlsEntries, List.map_cons]
    by_cases hk : isUrlKeyB k
    · rw [if_pos hk, List.filter_cons_of_neg (by simp [hk]),
        keys_stripUrlsEntries rest]
    · rw [if_neg hk, List.filter_cons_of_pos (by simp [hk]), List.map_cons,
        keys_stripUrlsEntries rest]

/-- Assigning under a URL key adds nothing the strip keeps. -/
theorem filter_nonUrl_setKey (k : String) (v : Json) (hk : isUrlKeyB k = true) :
    ∀ l : List (String × Json),
      (setKey l k v).filter nonUrlEntry = l.filter nonUrlEntry
  | [] => by
    rw [setKey, List.filter_cons_of_neg (by simp [nonUrlEntry, hk])]
  | (a, b) :: rest => by
    rw [setKey]
    by_cases ha : a = k
    · rw [if_pos ha, List.filter_cons_of_neg (by simp [nonUrlEntry, hk]), ha,
        List.filter_cons_of_neg (by simp [nonUrlEntry, hk])]
    · rw [if_neg ha]
      by_cases hb : isUrlKeyB a
      · rw [List.filter_cons_of_neg (by simp [nonUrlEntry, hb]),
          List.filter_cons_of_neg (by simp [nonUrlEntry, hb]),
          filter_nonUrl_setKey k v hk rest]
      · rw [List.filter_cons_of_pos (by simp [nonUrlEntry, hb]),
          List.filter_cons_of_pos (by simp [nonUrlEntry, hb]),
          filter_nonUrl_setKey k v hk rest]

/-- The mint stage adds nothing the strip keeps. -/
theorem filter_nonUrl_procMint (host : String) (key now : Nat)
    (orig : List (String × Json)) (k1 : String) (v1 : Json)
    (acc : List (String × Json)) :
    (procMint host key now orig k1 v1 acc).filter nonUrlEntry
      = acc.filter nonUrlEntry := by
  rw [procMint]
  by_cases hf : isFileIdKeyB k1
  · rw [if_pos hf]
    by_cases ht : (getDefault orig (mimeKeyOf k1)).truthy
    · rw [if_pos ht]
      exact filter_nonUrl_setKey _ _ (isUrlKeyB_urlKeyOf k1) acc
    · rw [if_neg ht]
      exact filter_nonUrl_setKey _ _ (isUrlKeyB_urlKeyOf k1) acc
  · rw [if_neg hf]

/-- Assigning a fresh key appends the entry. -/
theorem setKey_fresh (k : String) (v : Json) :
    ∀ l : List (String × Json), k ∉ l.map Prod.fst → setKey l k v = l ++ [(k, v)]
  | [], _ => rfl
  | (a, b) :: rest, h => by
    rw [List.map_cons, List.mem_cons] at h
    push_neg at h
    rw [setKey, if_neg (fun he => h.1 he.symm), setKey_fresh k v rest h.2,
      List.cons_append]

/-- The strip-surviving entries after one iteration on a fresh non-URL key:
the old ones, then the current entry with its value re-processed. -/
theorem filter_nonUrl_procStep (host : String) (key now : Nat)
    (orig : List (String × Json)) (k1 : String) (v1 : Json)
    (acc : List (String × Json)) (hk : isUrlKeyB k1 = false)
    (hfresh : k1 ∉ acc.map Prod.fst) :
    (procStep host key now orig k1 v1 acc).filter nonUrlEntry
      = acc.filter nonUrlEntry ++ [(k1, procItem host key now v1)] := by
  rw [procStep_eq_setKey]
  have hfresh2 : k1 ∉ (procMint host key now orig k1 v1 acc).map Prod.fst := by
    intro hmem
    rcases keys_procMint_elim host key now orig k1 v1 acc k1 hmem with h | h
    · have hu := isUrlKeyB_urlKeyOf k1
      rw [← h, hk] at hu
      exact absurd hu (by decide)
    · exact hfresh h
  rw [setKey_fresh _ _ _ hfresh2, List.filter_append,
    filter_nonUrl_procMint host key now orig k1 v1 acc,
    List.filter_cons_of_pos (by simp [nonUrlEntry, hk]), List.filter_nil]

/-- The strip-surviving part of the final `new_dict`, on a unique-keyed
dict with no URL keys: exactly the input entries in order, values
re-processed. -/
theorem filter_nonUrl_procEntries (host : String) (key now : Nat)
    (orig : List (String × Json)) :
    ∀ (es acc : List (String × Json)),
      (∀ p ∈ es, isUrlKeyB p.1 = false) → (es.map Prod.fst).Nodup →
      (∀ k' ∈ es.map Prod.fst, k' ∉ acc.map Prod.fst) →
      (procEntries host key now orig es acc).filter nonUrlEntry
        = acc.filter nonUrlEntry
            ++ es.map (fun q => (q.1, procItem host key now q.2))
  | [], acc, _, _, _ => by
    rw [procEntries, List.map_nil, List.append_nil]
  | (k1, v1) :: rest, acc, he, hnd, hfresh => by
    rw [procEntries_cons]
    have hk1 : isUrlKeyB k1 = false := he (k1, v1) (List.mem_cons_self _ _)
    have hf1 : k1 ∉ acc.map Prod.fst :=
      hfresh k1 (by rw [List.map_cons]; exact List.mem_cons_self _ _)
    rw [List.map_cons, List.nodup_cons] at hnd
    have hstep : ∀ k' ∈ rest.map Prod.fst,
        k' ∉ (procStep host key now orig k1 v1 acc).map Prod.fst := by
      intro k' hk' hmem
      rcases keys_procStep_elim host key now orig k1 v1 acc k' hmem with h | h | h
      · rw [h] at hk'
        exact hnd.1 hk'
      · obtain ⟨q, hq, hqe⟩ := List.mem_map.1 hk'
        have hnu := he q (List.mem_cons_of_mem _ hq)
        rw [hqe] at hnu
        have hu := isUrlKeyB_urlKeyOf k1
        rw [← h, hnu] at hu
        exact absurd hu (by decide)
      · exact hfresh k' (by rw [List.map_cons]; exact List.mem_cons_of_mem _ hk') h
    rw [filter_nonUrl_procEntries host key now orig rest _
        (fun p hp => he p (List.mem_cons_of_mem _ hp)) hnd.2 hstep,
      filter_nonUrl_procStep host key now orig k1 v1 acc hk1 hf1,
      List.map_cons, List.append_assoc, List.singleton_append]

/-! ## Uniqueness of the sorted arrangement (towards C7) -/

/-- A non-strictly sorted list with unique keys is strictly key-sorted. -/
theorem pairwise_ltP_of_leP_nodup (l : List (String × Json))
    (h1 : List.Pairwise entryLeP l) (h2 : (l.map Prod.fst).Nodup) :
    List.Pairwise entryLtP l := by
  have h2' : List.Pairwise (fun a b : String × Json => a.1 ≠ b.1) l := by
    have h2'' : List.Pairwise (fun a b : String => a ≠ b) (l.map Prod.fst) := h2
    exact List.pairwise_map.1 h2''
  exact (h1.and h2').imp (fun hh => entryLtP_of_leP_ne _ _ hh.1 hh.2)

/-- Strict key-sortedness of the entries, from strict sortedness of the
keys. -/
theorem pairwise_ltP_of_keys (l : List (String × Json))
    (h : List.Pairwise strLtP (l.map Prod.fst)) : List.Pairwise entryLtP l :=
  (List.pairwise_map.1 h).imp (fun hh => hh)

/-- Strict sortedness of the keys, from strict key-sortedness of the
entries. -/
theorem pairwise_keys_of_ltP (l : List (String × Json))
    (h : List.Pairwise entryLtP l) : List.Pairwise strLtP (l.map Prod.fst) :=
  List.pairwise_map.2 (h.imp (fun hh => hh))

/-- Strictly sorted keys are unique. -/
theorem nodup_keys_of_pairwise_keys (l : List (String × Json))
    (h : List.Pairwise strLtP (l.map Prod.fst)) : (l.map Prod.fst).Nodup :=
  h.imp (fun hh he => by
    rw [he, strLtP, strLtB_irrefl] at hh
    exact absurd hh (by decide))

instance : IsAntisymm (String × Json) entryLtP where
  antisymm a b h1 h2 := by
    rw [entryLtP] at h1 h2
    rw [strLtB_asymm _ _ h1] at h2
    exact absurd h2 (by decide)

/-- Two strictly key-sorted arrangements of the same entries are equal. -/
theorem eq_of_perm_of_key_sorted (l1 l2 : List (String × Json))
    (hp : l1.Perm l2) (h1 : List.Pairwise entryLtP l1)
    (h2 : List.Pairwise entryLtP l2) : l1 = l2 :=
  List.eq_of_perm_of_sorted hp h1 h2

/-! ## Every output mapping is sorted (towards C7) -/

/-- `SortedEntries` is `SortedTree` of every value. -/
theorem sortedEntries_iff : ∀ es : List (String × Json),
    SortedEntries es ↔ ∀ p ∈ es, SortedTree p.2
  | [] => by simp [SortedEntries]
  | (k, v) :: rest => by
    rw [SortedEntries, sortedEntries_iff rest]
    constructor
    · rintro ⟨h1, h2⟩ p hp
      rcases List.mem_cons.1 hp with hp | hp
      · rw [hp]
        exact h1
      · exact h2 p hp
    · intro h
      exact ⟨h (k, v) (List.mem_cons_self _ _),
        fun p hp => h p (List.mem_cons_of_mem _ hp)⟩

/-- `NormalEntries` is no-URL-key and `NormalTree` of every entry. -/
theorem normalEntries_iff : ∀ es : List (String × Json),
    NormalEntries es ↔ ∀ p ∈ es, isUrlKeyB p.1 = false ∧ NormalTree p.2
  | [] => by simp [NormalEntries]
  | (k, v) :: rest => by
    rw [NormalEntries, normalEntries_iff rest]
    constructor
    · rintro ⟨h1, h2, h3⟩ p hp
      rcases List.mem_cons.1 hp with hp | hp
      · rw [hp]
        exact ⟨h1, h2⟩
      · exact h3 p hp
    · intro h
      exact ⟨(h (k, v) (List.mem_cons_self _ _)).1,
        (h (k, v) (List.mem_cons_self _ _)).2,
        fun p hp => h p (List.mem_cons_of_mem _ hp)⟩

mutual

/-- Every mapping node of a re-processed value has strictly sorted keys. -/
theorem sortedTree_procItem (host : String) (key now : Nat) :
    ∀ j : Json, SortedTree (procItem host key now j)
  | .obj d => by
    rw [procItem, SortedTree]
    constructor
    · have hle := pairwise_sortEntries (procEntries host key now d d [])
      have hnd : ((sortEntries (procEntries host key now d d [])).map
          Prod.fst).Nodup :=
        (((sortEntries_perm _).map Prod.fst).nodup_iff).2
          (nodup_keys_procEntries host key now d d [] (by simp))
      exact pairwise_keys_of_ltP _ (pairwise_ltP_of_leP_nodup _ hle hnd)
    · rw [sortedEntries_iff]
      intro p hp
      have hp2 : p ∈ procEntries host key now d d [] :=
        (sortEntries_perm _).mem_iff.1 hp
      rcases mem_procEntries_elim host key now d d [] p hp2 with h | h | h
      · obtain ⟨q, hq, he⟩ := h
        rw [he]
        exact sortedTree_procVals host key now d q hq
      · obtain ⟨_, s, hs⟩ := h
        rw [hs, SortedTree]
        trivial
      · exact absurd h (List.not_mem_nil p)
  | .arr [] => by
    rw [procItem, procList, SortedTree]
    trivial
  | .arr (x :: xs) => by
    rw [procItem, procList, SortedTree, SortedList]
    exact ⟨sortedTree_procItem host key now x, trivial⟩
  | .null => by
    rw [procItem_leaf host key now .null (fun d h => Json.noConfusion h)
      (fun l h => Json.noConfusion h), SortedTree]
    trivial
  | .bool b => by
    rw [procItem_leaf host key now (.bool b) (fun d h => Json.noConfusion h)
      (fun l h => Json.noConfusion h), SortedTree]
    trivial
  | .num n => by
    rw [procItem_leaf host key now (.num n) (fun d h => Json.noConfusion h)
      (fun l h => Json.noConfusion h), SortedTree]
    trivial
  | .str s => by
    rw [procItem_leaf host key now (.str s) (fun d h => Json.noConfusion h)
      (fun l h => Json.noConfusion h), SortedTree]
    trivial

/-- Every re-processed entry value of a dict has sorted mapping nodes. -/
theorem sortedTree_procVals (host : String) (key now : Nat) :
    ∀ es : List (String × Json), ∀ q ∈ es,
      SortedTree (procItem host key now q.2)
  | [] => fun q hq => absurd hq (List.not_mem_nil q)
  | (k, v) :: rest => by
    intro q hq
    rcases List.mem_cons.1 hq with hq | hq
    · rw [hq]
      exact sortedTree_procItem host key now v
    · exact sortedTree_procVals host key now rest q hq

end

/-! ## Stripped output is in normal form (towards C7) -/

mutual

/-- Stripping the URL fields from a re-processed value leaves a normal-form
tree: sorted unique keys, no URL keys, singleton sequences. -/
theorem normalTree_strip_procItem (host : String) (key now : Nat) :
    ∀ j : Json, NormalTree (stripUrls (procItem host key now j))
  | .obj d => by
    rw [procItem, stripUrls, NormalTree]
    constructor
    · have hle := pairwise_sortEntries (procEntries host key now d d [])
      have hnd : ((sortEntries (procEntries host key now d d [])).map
          Prod.fst).Nodup :=
        (((sortEntries_perm _).map Prod.fst).nodup_iff).2
          (nodup_keys_procEntries host key now d d [] (by simp))
      have hstrict := pairwise_keys_of_ltP _ (pairwise_ltP_of_leP_nodup _ hle hnd)
      rw [keys_stripUrlsEntries]
      exact List.Pairwise.filter _ hstrict
    · rw [normalEntries_iff]
      intro p hp
      rw [stripUrlsEntries_eq] at hp
      obtain ⟨q, hq, rfl⟩ := List.mem_map.1 hp
      have hqf := List.mem_filter.1 hq
      constructor
      · show isUrlKeyB q.1 = false
        have h2 := hqf.2
        rw [nonUrlEntry, Bool.not_eq_true'] at h2
        exact h2
      · show NormalTree (stripUrls q.2)
        have hq2 : q ∈ procEntries host key now d d [] :=
          (sortEntries_perm _).mem_iff.1 hqf.1
        rcases mem_procEntries_elim host key now d d [] q hq2 with h | h | h
        · obtain ⟨r, hr, hre⟩ := h
          rw [hre]
          exact normalTree_strip_procVals host key now d r hr
        · have h2 := hqf.2
          rw [nonUrlEntry, h.1] at h2
          exact absurd h2 (by decide)
        · exact absurd h (List.not_mem_nil q)
  | .arr [] => by
    rw [procItem, procList]
    exact trivial
  | .arr (x :: xs) => by
    rw [procItem, procList, stripUrls, stripUrlsList, stripUrlsList, NormalTree]
    exact normalTree_strip_procItem host key now x
  | .null => by
    rw [procItem_leaf host key now .null (fun d h => Json.noConfusion h)
      (fun l h => Json.noConfusion h)]
    exact trivial
  | .bool b => by
    rw [procItem_leaf host key now (.bool b) (fun d h => Json.noConfusion h)
      (fun l h => Json.noConfusion h)]
    exact trivial
  | .num n => by
    rw [procItem_leaf host key now (.num n) (fun d h => Json.noConfusion h)
      (fun l h => Json.noConfusion h)]
    exact trivial
  | .str s => by
    rw [procItem_leaf host key now (.str s) (fun d h => Json.noConfusion h)
      (fun l h => Json.noConfusion h)]
    exact trivial

/-- The stripped re-processed entry values of a dict are normal. -/
theorem normalTree_strip_procVals (host : String) (key now : Nat) :
    ∀ es : List (String × Json), ∀ q ∈ es,
      NormalTree (stripUrls (procItem host key now q.2))
  | [] => fun q hq => absurd hq (List.not_mem_nil q)
  | (k, v) :: rest => by
    intro q hq
    rcases List.mem_cons.1 hq with hq | hq
    · rw [hq]
      exact normalTree_strip_procItem host key now v
    · exact normalTree_strip_procVals host key now rest q hq

end

/-! ## Re-processing a normal-form tree reproduces it (towards C7) -/

mutual

/-- Re-processing a normal-form tree and stripping the regenerated URL
fields reproduces the tree exactly, under any host, key and clock. -/
theorem strip_procItem_of_normal (host : String) (key now : Nat) :
    ∀ j : Json, NormalTree j → stripUrls (procItem host key now j) = j
  | .obj d, h => by
    rw [NormalTree] at h
    obtain ⟨hsort, hents⟩ := h
    rw [procItem, stripUrls, stripUrlsEntries_eq]
    have hchar := filter_nonUrl_procEntries host key now d d []
      (fun p hp => ((normalEntries_iff d).1 hents p hp).1)
      (nodup_keys_of_pairwise_keys d hsort)
      (fun k' _ hmem => absurd hmem (by simp))
    rw [List.filter_nil, List.nil_append] at hchar
    have hperm : ((sortEntries (procEntries host key now d d [])).filter
        nonUrlEntry).Perm
        (d.map (fun q => (q.1, procItem host key now q.2))) := by
      rw [← hchar]
      exact (sortEntries_perm _).filter nonUrlEntry
    have hndS : ((sortEntries (procEntries host key now d d [])).map
        Prod.fst).Nodup :=
      (((sortEntries_perm _).map Prod.fst).nodup_iff).2
        (nodup_keys_procEntries host key now d d [] (by simp))
    have hleF := List.Pairwise.filter nonUrlEntry
      (pairwise_sortEntries (procEntries host key now d d []))
    have hndF : (((sortEntries (procEntries host key now d d [])).filter
        nonUrlEntry).map Prod.fst).Nodup :=
      hndS.sublist ((List.filter_sublist _).map Prod.fst)
    have hs1 := pairwise_ltP_of_leP_nodup _ hleF hndF
    have hkeys : ((d.map (fun q => (q.1, procItem host key now q.2))).map
        Prod.fst) = d.map Prod.fst := by
      rw [List.map_map]
      exact List.map_congr_left (fun q _ => rfl)
    have hs2 : List.Pairwise entryLtP
        (d.map (fun q => (q.1, procItem host key now q.2))) :=
      pairwise_ltP_of_keys _ (by rw [hkeys]; exact hsort)
    rw [eq_of_perm_of_key_sorted _ _ hperm hs1 hs2, List.map_map]
    have hid : ∀ q ∈ d,
        ((fun p : String × Json => (p.1, stripUrls p.2)) ∘
          (fun q : String × Json => (q.1, procItem host key now q.2))) q
          = id q := by
      intro q hq
      show (q.1, stripUrls (procItem host key now q.2)) = q
      rw [strip_procVals_of_normal host key now d hents q hq]
    rw [List.map_congr_left hid, List.map_id]
  | .arr [], h => by
    rw [NormalTree] at h
    exact h.elim
  | .arr [x], h => by
    rw [NormalTree] at h
    rw [procItem, procList, stripUrls, stripUrlsList, stripUrlsList,
      strip_procItem_of_normal host key now x h]
  | .arr (x :: y :: rest), h => by
    rw [NormalTree] at h
    exact h.elim
  | .null, _ => by
    rw [procItem_leaf host key now .null (fun d h => Json.noConfusion h)
      (fun l h => Json.noConfusion h)]
    rfl
  | .bool b, _ => by
    rw [procItem_leaf host key now (.bool b) (fun d h => Json.noConfusion h)
      (fun l h => Json.noConfusion h)]
    rfl
  | .num n, _ => by
    rw [procItem_leaf host key now (.num n) (fun d h => Json.noConfusion h)
      (fun l h => Json.noConfusion h)]
    rfl
  | .str s, _ => by
    rw [procItem_leaf host key now (.str s) (fun d h => Json.noConfusion h)
      (fun l h => Json.noConfusion h)]
    rfl

/-- Re-processing the values of a normal-form dict reproduces them. -/
theorem strip_procVals_of_normal (host : String) (key now : Nat) :
    ∀ es : List (String × Json), NormalEntries es →
      ∀ q ∈ es, stripUrls (procItem host key now q.2) = q.2
  | [], _ => fun q hq => absurd hq (List.not_mem_nil q)
  | (k, v) :: rest, h => by
    rw [NormalEntries] at h
    intro q hq
    rcases List.mem_cons.1 hq with hq | hq
    · rw [hq]
      exact strip_procItem_of_normal host key now v h.2.1
    · exact strip_procVals_of_normal host key now rest h.2.2 q hq

end

/-- Every mapping node of the normalizer's output has strictly sorted
keys. -/
theorem sortedTree_process (host : String) (key now : Nat) (x : Json) :
    SortedTree (PyrogramResponse.process_file_ids host key now x) := by
  cases x with
  | obj d =>
    have h := sortedTree_procItem host key now (.obj d)
    rw [procItem] at h
    rw [PyrogramResponse.process_file_ids, procDict]
    exact h
  | arr l =>
    have h := sortedTree_procItem host key now (.arr l)
    rw [procItem] at h
    rw [PyrogramResponse.process_file_ids]
    exact h
  | null => exact trivial
  | bool b => exact trivial
  | num n => exact trivial
  | str s => exact trivial

/-- The URL-stripped normalizer output is in normal form. -/
theorem normalTree_strip_process (host : String) (key now : Nat) (x : Json) :
    NormalTree (stripUrls (PyrogramResponse.process_file_ids host key now x)) := by
  cases x with
  | obj d =>
    have h := normalTree_strip_procItem host key now (.obj d)
    rw [procItem] at h
    rw [PyrogramResponse.process_file_ids, procDict]
    exact h
  | arr l =>
    have h := normalTree_strip_procItem host key now (.arr l)
    rw [procItem] at h
    rw [PyrogramResponse.process_file_ids]
    exact h
  | null => exact trivial
  | bool b => exact trivial
  | num n => exact trivial
  | str s => exact trivial

/-- **C7**: every mapping node of the normalizer's output has its keys
sorted lexicographically (strictly: output keys are unique), and
normalization is idempotent on structure: stripping the generated media-URL
fields from an output tree and re-feeding it — under any request host,
secret key and clock — yields sorted keys again and reproduces the
stripped tree exactly, so every non-media field (indeed every field that
survives the strip) is unchanged. -/
theorem C7_sorted_keys_and_idempotence (host : String) (key now : Nat)
    (x : Json) (host2 : String) (key2 now2 : Nat) :
    SortedTree (PyrogramResponse.process_file_ids host key now x) ∧
    SortedTree (PyrogramResponse.process_file_ids host2 key2 now2
      (stripUrls (PyrogramResponse.process_file_ids host key now x))) ∧
    stripUrls (PyrogramResponse.process_file_ids host2 key2 now2
        (stripUrls (PyrogramResponse.process_file_ids host key now x)))
      = stripUrls (PyrogramResponse.process_file_ids host key now x) := by
  refine ⟨sortedTree_process host key now x, sortedTree_process host2 key2 now2 _, ?_⟩
  cases x with
  | obj d =>
    have hn := normalTree_strip_process host key now (.obj d)
    rw [PyrogramResponse.process_file_ids, procDict] at hn ⊢
    rw [stripUrls] at hn ⊢
    have h2 := strip_procItem_of_normal host2 key2 now2
      (.obj (stripUrlsEntries (sortEntries (procEntries host key now d d [])))) hn
    rw [procItem] at h2
    rw [PyrogramResponse.process_file_ids, procDict]
    exact h2
  | arr l =>
    cases l with
    | nil => rfl
    | cons a as =>
      rw [PyrogramResponse.process_file_ids, procList, stripUrls, stripUrlsList,
        stripUrlsList]
      have hn := normalTree_strip_procItem host key now a
      rw [PyrogramResponse.process_file_ids, procList, stripUrls, stripUrlsList,
        stripUrlsList, strip_procItem_of_normal host2 key2 now2 _ hn]
  | null => rfl
  | bool b => rfl
  | num n => rfl
  | str s => rfl
